import Mathlib

/-!
Verification development for the `supersetup` repository
(src/supersetup/repo.py and src/supersetup/__main__.py).

The development shallowly embeds the program:

* `GitURL` (repo.py lines 48-172): the two syntax patterns are embedded as
  executable matchers over `List Char` that mirror the backtracking
  behaviour of Python's `re.search` on these two concrete patterns.
* `Repo` operations (`ensure`, `check`, `pull`, `upgrade`,
  `_registered_remote`, `_ensure_remotes`, `_assert_clean`, constructor,
  `set_protocol`): pure functions from a repository descriptor and an
  observed local git state to the list of shell commands issued
  (mirroring `Repo._cmd`'s `_logged_cmds` audit trail) together with an
  outcome value (normal return or the exception raised).
* `RepoRegistry.apply` (sequential mode, __main__.py lines 26-38).

External collaborator behaviour (git itself) is not reimplemented: the
embedded state records the observations the program would make, and
oracle fields record which fallible shell commands fail (the program
catches `ShellException` in a few specific places).
-/

namespace Supersetup

/-! ## Character classes of `GitURL.SYNTAX_PATTERNS` (repo.py lines 75-86)

The url pattern is  `(?P<transport>\w+://)((?P<user>\w+[^@]*@))?`
`(?P<host>[a-z0-9_.-]+)((?P<port>:[0-9]+))?/(?P<path>.*\.git)`
and the ssh pattern is `(?P<user>\w+[^@]*@)(?P<host>[a-z0-9_.-]+):(?P<path>.*\.git)`.

`\w` is modelled on its ASCII fragment (letters, digits, underscore);
`.` matches any character except a newline (no DOTALL flag is set). -/

def isWordChar (c : Char) : Bool := c.isAlphanum || c = '_'

def isHostChar (c : Char) : Bool :=
  (('a' ≤ c) && (c ≤ 'z')) || c.isDigit || c = '_' || c = '.' || c = '-'

def isDotChar (c : Char) : Bool := c != '\n'

/-- Greedy maximal run of characters satisfying `p` (the longest-first
phase of a greedy `X*` / `X+` on a character class). -/
def takeRun (p : Char → Bool) : List Char → List Char × List Char
  | [] => ([], [])
  | c :: cs =>
    if p c then
      let r := takeRun p cs
      (c :: r.1, r.2)
    else ([], c :: cs)

/-- Split a character list just after its first `'@'`.
Used for `[^@]*@`: since `[^@]` cannot cross an `'@'`, a greedy
`[^@]*@` deterministically consumes exactly up to and including the
first `'@'`. -/
def splitAtFirstAmp : List Char → Option (List Char × List Char)
  | [] => none
  | c :: cs =>
    if c = '@' then some ([c], cs)
    else
      match splitAtFirstAmp cs with
      | some (a, r) => some (c :: a, r)
      | none => none

/-- Match `\w+[^@]*@` at the head of the list.  All backtracking
alternatives of `\w+` / `[^@]*` end at the same first `'@'` (neither
`\w` nor `[^@]` matches `'@'`), so the group is deterministic: the head
character must be a word character and the group extends through the
first `'@'`. -/
def matchUser (l : List Char) : Option (List Char × List Char) :=
  match l with
  | [] => none
  | c :: cs =>
    if isWordChar c then
      match splitAtFirstAmp cs with
      | some (a, r) => some (c :: a, r)
      | none => none
    else none

/-- Match `\w+://` at the head of the list.  Shorter choices of the
greedy `\w+` would require `':'` inside a word-character run, which is
impossible, so the run is exactly the maximal one. -/
def matchTransport (l : List Char) : Option (List Char × List Char) :=
  let wr := takeRun isWordChar l
  if wr.1.isEmpty then none
  else
    match wr.2 with
    | c1 :: c2 :: c3 :: r =>
      if c1 = ':' ∧ c2 = '/' ∧ c3 = '/' then some (wr.1 ++ [':', '/', '/'], r)
      else none
    | _ => none

/-- Does the list start with `'t' :: 'i' :: 'g' :: '.'` (the reverse of
`".git"`)? -/
def isTigDot : List Char → Bool
  | c1 :: c2 :: c3 :: c4 :: _ => c1 = 't' && c2 = 'i' && c3 = 'g' && c4 = '.'
  | _ => false

/-- On the reverse of the candidate text, find the longest prefix of the
original text that ends in `".git"`: returns the reversed prefix
(starting with `"tig."`) and the reversed dropped tail. -/
def findGitRev : List Char → Option (List Char × List Char)
  | [] => none
  | c :: rest =>
    if isTigDot (c :: rest) then some (c :: rest, [])
    else
      match findGitRev rest with
      | some (s, d) => some (s, c :: d)
      | none => none

/-- Match `.*\.git` at the head of the list: greedy `.*` over
non-newline characters, backtracking to the last position where
`".git"` completes.  Returns the matched path group and the leftover. -/
def matchPath (l : List Char) : Option (List Char × List Char) :=
  let dr := takeRun isDotChar l
  match findGitRev dr.1.reverse with
  | some (s, d) => some (s.reverse, d.reverse ++ dr.2)
  | none => none

structure SshGroups where
  user : List Char
  host : List Char
  path : List Char
deriving Repr, DecidableEq

structure UrlGroups where
  transport : List Char
  user : List Char
  host : List Char
  port : List Char
  path : List Char
deriving Repr, DecidableEq

/-- Match the ssh pattern `(\w+[^@]*@)([a-z0-9_.-]+):(.*\.git)` at the
head of the list.  The host run is deterministic because `':'` is not a
host character, so no shorter run can satisfy the following literal. -/
def matchSshAt (l : List Char) : Option SshGroups :=
  match matchUser l with
  | none => none
  | some (u, r1) =>
    let hr := takeRun isHostChar r1
    if hr.1.isEmpty then none
    else
      match hr.2 with
      | c :: r3 =>
        if c = ':' then
          match matchPath r3 with
          | some (p, _) => some ⟨u, hr.1, p⟩
          | none => none
        else none
      | [] => none

/-- Shared tail of the url pattern after the transport and optional user
groups: `([a-z0-9_.-]+)(:[0-9]+)?/(.*\.git)`.  Host and port runs are
deterministic because neither `':'` nor `'/'` is a host character and
`'/'` is not a digit. -/
def matchHostTail (t u : List Char) (l : List Char) : Option UrlGroups :=
  let hr := takeRun isHostChar l
  if hr.1.isEmpty then none
  else
    match hr.2 with
    | c :: r2 =>
      if c = '/' then
        match matchPath r2 with
        | some (p, _) => some ⟨t, u, hr.1, [], p⟩
        | none => none
      else if c = ':' then
        let dg := takeRun Char.isDigit r2
        if dg.1.isEmpty then none
        else
          match dg.2 with
          | c' :: r4 =>
            if c' = '/' then
              match matchPath r4 with
              | some (p, _) => some ⟨t, u, hr.1, ':' :: dg.1, p⟩
              | none => none
            else none
          | [] => none
      else none
    | [] => none

/-- Match the url pattern at the head of the list.  The optional user
group is greedy: the variant with the user group is tried first and the
variant without it is the backtracking fallback. -/
def matchUrlAt (l : List Char) : Option UrlGroups :=
  match matchTransport l with
  | none => none
  | some (t, r1) =>
    match matchUser r1 with
    | some (u, r2) =>
      match matchHostTail t u r2 with
      | some g => some g
      | none => matchHostTail t [] r1
    | none => matchHostTail t [] r1

/-- Model of `re.search` with the ssh pattern: try match positions
left to right. -/
def searchSsh : List Char → Option SshGroups
  | [] => none
  | c :: rest =>
    match matchSshAt (c :: rest) with
    | some g => some g
    | none => searchSsh rest

/-- Model of `re.search` with the url pattern: try match positions
left to right. -/
def searchUrl : List Char → Option UrlGroups
  | [] => none
  | c :: rest =>
    match matchUrlAt (c :: rest) with
    | some g => some g
    | none => searchUrl rest

inductive Syn
  | url
  | ssh
deriving Repr, DecidableEq

/-- The info dict produced by `GitURL.parts` (repo.py lines 120-152);
groups that are missing or not part of the matched pattern are
normalised to the empty string. -/
structure PartsInfo where
  syn : Syn
  transport : String
  user : String
  host : String
  port : String
  path : String
deriving Repr, DecidableEq

namespace GitURL

/-- Model of `GitURL.parts` (repo.py lines 120-152): the patterns are tried in
the dict's insertion order, `url` first and `ssh` second; if neither
matches, the method raises (`none` here). -/
def parts (u : String) : Option PartsInfo :=
  match searchUrl u.toList with
  | some g =>
    some ⟨.url, ⟨g.transport⟩, ⟨g.user⟩, ⟨g.host⟩, ⟨g.port⟩, ⟨g.path⟩⟩
  | none =>
    match searchSsh u.toList with
    | some g => some ⟨.ssh, "", ⟨g.user⟩, ⟨g.host⟩, "", ⟨g.path⟩⟩
    | none => none

/-- Model of `GitURL.format` (repo.py lines 154-172): the ssh form forces
`user = "git@"` and joins `user, host, ':', path`; any other protocol
sets `transport = protocol ++ "://"`, clears `port` and `user`, and
joins `transport, user, host, port, '/', path`. -/
def format (u : String) (protocol : String) : Option String :=
  (parts u).map fun p =>
    if protocol = "ssh" then "git@" ++ p.host ++ ":" ++ p.path
    else protocol ++ "://" ++ p.host ++ "/" ++ p.path

end GitURL

/-! ## Repository descriptor, observed local state, and operations

`Repo` carries the resolved desired-state fields of `Repo.__init__`
(repo.py lines 232-287).  `GitState` carries the observations the
operations make through gitpython and the filesystem, plus oracle
fields recording which of the fallible shell commands (the ones whose
`ShellException` the program catches) exit nonzero.  Each operation
returns the ordered list of shell commands it records via `Repo._cmd`
(repo.py line 325, `_logged_cmds`) together with its outcome. -/

inductive Outcome (ε α : Type)
  | ok (a : α)
  | err (e : ε)
deriving Repr, DecidableEq

inductive EnsureErr
  | dirtyRepo            -- DirtyRepoError (repo.py line 410)
  | assertionErr         -- AssertionError (repo.py line 529)
  | shellErr             -- ShellException propagated to the caller
  | typeErr              -- TypeError re-raised (repo.py line 602) or raised (line 472)
  | refNotFound          -- Exception('does the branch exist on the remote?')
  | branchStillMissing   -- Exception('Branch name still does not exist')
  | valueErr             -- ValueError from ub.argmax([]) (repo.py line 469)
  | attributeErr         -- remote.name on None (repo.py line 450)
deriving Repr, DecidableEq

structure Repo where
  name : String
  dpath : String
  remote : String                   -- the active remote name
  remotes : List (String × String)  -- remote name → declared url
  branch : String
  url : String                      -- derived: remotes[remote]
deriving Repr, DecidableEq

structure GitState where
  dpathExists : Bool
  dirty : Bool
  /-- registered remote name → its configured urls (`remote.urls`) -/
  registered : List (String × List String)
  /-- remote name → locally-known remote branch names (`remote.refs`) -/
  remoteRefs : List (String × List String)
  /-- the same observation as made after a `git fetch` of that remote -/
  remoteRefsAfterFetch : List (String × List String)
  /-- `pygit.active_branch.name`; `none` models the detached-HEAD
  `TypeError` -/
  activeBranch : Option String
  /-- `active_branch.tracking_branch()` as (remote name, branch) -/
  trackingBranch : Option (String × String)
  /-- tag name → commit sha (`pygit.tags`) -/
  tags : List (String × String)
  headSha : String
  /-- oracle: the `git clone` command exits nonzero -/
  cloneFails : Bool
  /-- oracle: remote names whose `git remote add` exits nonzero -/
  remoteAddFails : List String
  /-- oracle: branch names whose `git checkout b` exits nonzero -/
  checkoutFails : List String
  /-- oracle: branch names whose `git checkout -b b remote/b` exits
  nonzero -/
  checkoutTrackFails : List String
deriving Repr, DecidableEq

def refsOf (s : GitState) (n : String) : List String :=
  (s.remoteRefs.lookup n).getD []

def refsAfterFetchOf (s : GitState) (n : String) : List String :=
  (s.remoteRefsAfterFetch.lookup n).getD []

/-- The urls of a remote (`remote.urls`) as observed after `_registered_remote`: for an
originally-registered remote its configured urls, for a remote that was
just added by `_ensure_remotes` the single url that was added. -/
def urlsOf (r : Repo) (s : GitState) (added : List String) (n : String) :
    List String :=
  match s.registered.lookup n with
  | some us => us
  | none => if n ∈ added then [(r.remotes.lookup n).getD ""] else []

/-- Model of `Repo._assert_clean` (repo.py lines 408-410). -/
def assertClean (s : GitState) : Outcome EnsureErr Unit :=
  if s.dirty then .err .dirtyRepo else .ok ()

/-- The clone command text of `Repo.clone` (repo.py lines 389-399);
`branch` is always set in this model so the `-b` argument is present. -/
def cloneCmd (r : Repo) : String :=
  "git clone --recursive -b " ++ r.branch ++ " " ++ r.url ++ " " ++ r.dpath

/-- Loop body of `Repo._ensure_remotes` (repo.py lines 509-533): walk
the declared remotes in order; a registered name only warns on a url
mismatch (no command); a missing name is added in live mode (the add is
logged before it can fail, and its `ShellException` is re-raised only
for the active remote) while in dry mode an `AssertionError` is raised,
which the `except ShellException` clause does not catch. -/
def ensureRemotesGo (r : Repo) (s : GitState) (dry : Bool) :
    List (String × String) → List String → List String →
    List String × Outcome EnsureErr (List String)
  | [], cmds, added => (cmds, .ok added)
  | (rname, rurl) :: rest, cmds, added =>
    if (s.registered.lookup rname).isSome then
      ensureRemotesGo r s dry rest cmds added
    else if dry then (cmds, .err .assertionErr)
    else
      let cmds := cmds ++ ["git remote add " ++ rname ++ " " ++ rurl]
      if rname ∈ s.remoteAddFails then
        if rname = r.remote then (cmds, .err .shellErr)
        else ensureRemotesGo r s dry rest cmds added
      else ensureRemotesGo r s dry rest cmds (added ++ [rname])

def ensureRemotes (r : Repo) (s : GitState) (dry : Bool) :
    List String × Outcome EnsureErr (List String) :=
  ensureRemotesGo r s dry r.remotes [] []

/-- Model of `Repo._registered_remote` (repo.py lines 484-507): look the active
remote up by name; if missing, run `_ensure_remotes` and look it up
again, returning `none` when it is still missing.  The result also
carries the list of remote names that were added, which determines the
urls observed for a freshly added remote. -/
def registeredRemote (r : Repo) (s : GitState) (dry : Bool) :
    List String × Outcome EnsureErr (Option String × List String) :=
  if (s.registered.lookup r.remote).isSome then ([], .ok (some r.remote, []))
  else
    let er := ensureRemotes r s dry
    match er.2 with
    | .err e => (er.1, .err e)
    | .ok added =>
      if r.remote ∈ added then (er.1, .ok (some r.remote, added))
      else (er.1, .ok (none, added))

structure OpResult where
  cmds : List String
  result : Outcome EnsureErr Unit
deriving Repr, DecidableEq

/-- The branch-switch step of `ensure` (repo.py lines 616-629): in dry
mode only report; in live mode `git checkout branch`, falling back on a
`ShellException` to `git fetch` plus `git checkout -b branch
remote/branch`, and failing with the branch-on-remote error if the
fallback also fails. -/
def checkoutStep (r : Repo) (s : GitState) (rname : String) (dry : Bool) :
    List String × Outcome EnsureErr Unit :=
  if dry then ([], .ok ())
  else
    let c1 := "git checkout " ++ r.branch
    if r.branch ∈ s.checkoutFails then
      let c2 := "git fetch " ++ rname
      let c3 := "git checkout -b " ++ r.branch ++ " " ++ r.remote ++ "/" ++ r.branch
      if r.branch ∈ s.checkoutTrackFails then ([c1, c2, c3], .err .refNotFound)
      else ([c1, c2, c3], .ok ())
    else ([c1], .ok ())

/-- The upstream-tracking step of `ensure` (repo.py lines 631-660),
reached when the current ref is a branch whose tracking branch is unset
or points at a different remote: re-resolve the active remote by name
(a missing name only logs); if the branch is not among its known refs,
fetch in live mode and fail if it is still missing; finally set the
upstream in live mode. -/
def upstreamStep (r : Repo) (s : GitState) (added : List String) (dry : Bool) :
    List String × Outcome EnsureErr Unit :=
  if (s.registered.lookup r.remote).isSome || r.remote ∈ added then
    if r.branch ∈ refsOf s r.remote then
      if dry then ([], .ok ())
      else (["git branch --set-upstream-to=" ++ r.remote ++ "/" ++ r.branch
              ++ " " ++ r.branch], .ok ())
    else if dry then ([], .ok ())
    else
      let c := ["git fetch " ++ r.remote]
      if r.branch ∈ refsAfterFetchOf s r.remote then
        (c ++ ["git branch --set-upstream-to=" ++ r.remote ++ "/" ++ r.branch
                ++ " " ++ r.branch], .ok ())
      else (c, .err .branchStillMissing)
  else ([], .ok ())

/-- Model of `Repo.ensure` (repo.py lines 535-678).  Every `repo._cmd` call in
`ensure` sits behind a dry-mode guard; the observation fields of `s`
are read at the point the source reads them. -/
def ensure (r : Repo) (s : GitState) (dry : Bool) : OpResult :=
  if !s.dpathExists && dry then ⟨[], .ok ()⟩
  else
    let cloneCmds := if s.dpathExists then [] else [cloneCmd r]
    if !s.dpathExists && s.cloneFails then ⟨cloneCmds, .err .shellErr⟩
    else
      match assertClean s with
      | .err e => ⟨cloneCmds, .err e⟩
      | .ok () =>
        let rr := registeredRemote r s dry
        let cmds := cloneCmds ++ rr.1
        match rr.2 with
        | .err e => ⟨cmds, .err e⟩
        | .ok (none, _) => ⟨cmds, .ok ()⟩
        | .ok (some rname, added) =>
          let fetchCmds :=
            if r.branch ∈ refsOf s rname then []
            else if dry then []
            else ["git fetch " ++ rname]
          let cmds := cmds ++ fetchCmds
          let setUrlCmds :=
            if r.url ∈ urlsOf r s added rname then []
            else if dry then []
            else ["git remote set-url " ++ r.remote ++ " " ++ r.url]
          let cmds := cmds ++ setUrlCmds
          match s.activeBranch with
          | some ab =>
            let co :=
              if r.branch = ab then ([], Outcome.ok ())
              else checkoutStep r s rname dry
            match co.2 with
            | .err e => ⟨cmds ++ co.1, .err e⟩
            | .ok () =>
              match s.trackingBranch with
              | some tb =>
                if tb.1 = r.remote then ⟨cmds ++ co.1, .ok ()⟩
                else
                  let up := upstreamStep r s added dry
                  ⟨cmds ++ co.1 ++ up.1, up.2⟩
              | none =>
                let up := upstreamStep r s added dry
                ⟨cmds ++ co.1 ++ up.1, up.2⟩
          | none =>
            let candidates := s.tags.filter (fun t => t.1 = r.branch)
            if candidates.length = 1 then
              let wantTag := candidates.head?.getD ("", "")
              let co :=
                if s.headSha = wantTag.2 then ([], Outcome.ok ())
                else checkoutStep r s rname dry
              match co.2 with
              | .err e => ⟨cmds ++ co.1, .err e⟩
              | .ok () => ⟨cmds ++ co.1, .ok ()⟩
            else ⟨cmds, .err .typeErr⟩

/-- Model of `Repo.check` (repo.py lines 412-413): a dry run of `ensure`. -/
def check (r : Repo) (s : GitState) : OpResult := ensure r s true

/-- Model of `Repo.pull` (repo.py lines 680-687). -/
def pull (_r : Repo) (s : GitState) : OpResult :=
  match assertClean s with
  | .err e => ⟨[], .err e⟩
  | .ok () => ⟨["git pull"], .ok ()⟩

/-! ## `Repo.upgrade` (repo.py lines 438-482) -/

/-- Does the list start with the given pattern? -/
def listStartsWith : List Char → List Char → Bool
  | _, [] => true
  | [], _ :: _ => false
  | c :: cs, p :: ps => c = p && listStartsWith cs ps

/-- Fuel-driven splitter mirroring Python `str.split(sep)` for a
non-empty separator: split at each leftmost non-overlapping occurrence.
The fuel is an upper bound on the number of characters consumed, which
keeps the recursion structural. -/
def splitSubGo (sep : List Char) : Nat → List Char → List (List Char)
  | _, [] => [[]]
  | 0, l => [l]
  | fuel + 1, c :: cs =>
    if listStartsWith (c :: cs) sep then
      [] :: splitSubGo sep fuel (List.drop (sep.length - 1) cs)
    else
      match splitSubGo sep fuel cs with
      | [] => [[c]]
      | a :: rest => (c :: a) :: rest

/-- Python `s.split(sep)` for a non-empty separator. -/
def strSplitOn (s sep : String) : List String :=
  (splitSubGo sep.toList (s.toList.length + 1) s.toList).map (⟨·⟩)

/-- Digit value of a character, for Python `int` on an unsigned
digit string. -/
def digitVal (c : Char) : Option Nat :=
  if c.isDigit then some (c.toNat - '0'.toNat) else none

def charsToNatGo : List Char → Nat → Option Nat
  | [], acc => some acc
  | c :: cs, acc =>
    match digitVal c with
    | some d => charsToNatGo cs (acc * 10 + d)
    | none => none

/-- Python `int(s)` on its unsigned digit form: every character a
digit and at least one of them (signs, whitespace and underscores,
which do not occur in version branch names, are not modelled). -/
def strToNat? (s : String) : Option Nat :=
  match s.toList with
  | [] => none
  | l => charsToNatGo l 0

/-- Version-tuple parse of one branch name: the text after the first
`"dev/"` is split on `'.'` and each piece parsed as an integer
(`tuple(map(int, name.split('dev/')[1].split('.')))`); any parse
failure discards the branch. -/
def parseDevTuple (name : String) : Option (List Nat) :=
  let suffix := ((strSplitOn name "dev/").get? 1).getD ""
  (strSplitOn suffix ".").mapM strToNat?

/-- Python tuple ordering on version tuples: lexicographic, a strict
prefix ordering below its extensions. -/
def tupleLt : List Nat → List Nat → Bool
  | [], [] => false
  | [], _ :: _ => true
  | _ :: _, [] => false
  | a :: as, b :: bs => if a < b then true else if b < a then false else tupleLt as bs

/-- Model of `ub.argmax` on a list: index of the first maximal element. -/
def argmaxGo : List (List Nat) → Nat → Nat → List Nat → Nat
  | [], _, besti, _ => besti
  | x :: xs, i, besti, bestv =>
    if tupleLt bestv x then argmaxGo xs (i + 1) i x
    else argmaxGo xs (i + 1) besti bestv

def argmaxIdx : List (List Nat) → Option Nat
  | [] => none
  | x :: xs => some (argmaxGo xs 1 0 x)

/-- The branch `upgrade` selects from the remote's branch names:
filter the `dev/` prefix, keep the parsable ones, take the first
maximum of the version tuples (repo.py lines 455-470). -/
def upgradeTarget (names : List String) : Option String :=
  let devNames := names.filter (fun n => listStartsWith n.toList "dev/".toList)
  let parsed := devNames.filterMap fun n => (parseDevTuple n).map fun t => (n, t)
  match argmaxIdx (parsed.map Prod.snd) with
  | none => none
  | some i => (parsed.get? i).map Prod.fst

/-- Model of `Repo.upgrade` (repo.py lines 438-482); its `dry` parameter is
unused by its body.  The remote's refs are enumerated after the initial
fetch. -/
def upgrade (r : Repo) (s : GitState) : OpResult :=
  let rr := registeredRemote r s false
  match rr.2 with
  | .err e => ⟨rr.1, .err e⟩
  | .ok (none, _) => ⟨rr.1, .err .attributeErr⟩
  | .ok (some rname, _) =>
    let cmds := rr.1 ++ ["git fetch " ++ rname]
    match upgradeTarget (refsAfterFetchOf s rname) with
    | none => ⟨cmds, .err .valueErr⟩
    | some latest =>
      match s.activeBranch with
      | none => ⟨cmds, .err .typeErr⟩
      | some ab =>
        if ab = latest then ⟨cmds, .ok ()⟩
        else
          let c1 := "git checkout " ++ latest
          if latest ∈ s.checkoutFails then
            let c2 := "git checkout -b " ++ latest ++ " " ++ rname ++ "/" ++ latest
            if latest ∈ s.checkoutTrackFails then ⟨cmds ++ [c1, c2], .err .refNotFound⟩
            else ⟨cmds ++ [c1, c2], .ok ()⟩
          else ⟨cmds ++ [c1], .ok ()⟩

/-! ## `RepoRegistry.apply`, sequential mode (__main__.py lines 26-38) -/

structure ApplyResult where
  processed : List String
  logs : List String
deriving Repr, DecidableEq

/-- The sequential loop of `RepoRegistry.apply` with `num_workers == 0`:
each repository's operation runs in declaration order; only
`DirtyRepoError` is caught (and logged); any other error propagates and
aborts the batch; the repository is appended to `processed_repos` in
the non-propagating cases. -/
def applySeq (op : Repo → GitState → OpResult) :
    List (Repo × GitState) → Outcome EnsureErr ApplyResult
  | [] => .ok ⟨[], []⟩
  | (r, s) :: rest =>
    match (op r s).result with
    | .ok () =>
      match applySeq op rest with
      | .ok a => .ok ⟨r.name :: a.processed, a.logs⟩
      | .err e => .err e
    | .err .dirtyRepo =>
      match applySeq op rest with
      | .ok a => .ok ⟨r.name :: a.processed, ("Ignoring dirty repo=" ++ r.name) :: a.logs⟩
      | .err e => .err e
    | .err e => .err e

/-! ## `Repo.__init__` (repo.py lines 232-287) and `set_protocol` -/

inductive InitErr
  | valueErr   -- 'must specify some remote' / 'remotes are ambiguous'
  | keyErr     -- repo.remotes[repo.remote] with a name not in the map
deriving Repr, DecidableEq

structure RepoCfg where
  name : Option String
  dpath : Option String
  codeDpath : Option String
  remotes : Option (List (String × String))
  remote : Option String
  branch : Option String
deriving Repr, DecidableEq

/-- Basename-derived repository name (repo.py lines 269-271):
`url.split('/')[-1].split('.git')[0]`. -/
def nameFromUrl (url : String) : String :=
  let suffix := ((strSplitOn url "/").getLast?).getD ""
  ((strSplitOn suffix ".git").head?).getD ""

/-- The remote-resolution steps of `Repo.__init__` (repo.py lines
243-265): with no explicit remote, the remote map comes from the
declaration or (when a `dpath` is declared) from the working copy's
configuration, must be non-empty and unambiguous, and its first key
becomes the active remote (`ub.peek`); with an explicit remote and no
map, the map `{"origin": remote}` is synthesised. -/
def resolveRemotes (cfg : RepoCfg) (observedRemotes : List (String × String)) :
    Outcome InitErr (List (String × String) × String) :=
  match cfg.remote with
  | none =>
    let remotes0 :=
      match cfg.remotes with
      | some rs => some rs
      | none => if cfg.dpath.isSome then some observedRemotes else none
    match remotes0 with
    | none => .err .valueErr
    | some rs =>
      if rs.length > 1 then .err .valueErr
      else
        match rs.head? with
        | none => .err .valueErr
        | some kv => .ok (rs, kv.1)
  | some rem =>
    match cfg.remotes with
    | none => .ok ([("origin", rem)], "origin")
    | some rs => .ok (rs, rem)

/-- Model of `Repo.__init__` (repo.py lines 232-287).  `observedRemotes` stands
for the remotes read from the existing working copy through gitpython
when neither `remote` nor `remotes` is declared but `dpath` is
(repo.py lines 245-248).  The url is looked up from the resolved map
(line 267, a `KeyError` when the active remote is not a key), then
name and local path are derived when not declared. -/
def Repo.init (cfg : RepoCfg) (observedRemotes : List (String × String)) :
    Outcome InitErr Repo :=
  match resolveRemotes cfg observedRemotes with
  | .err e => .err e
  | .ok (remotes, remote) =>
    match remotes.lookup remote with
    | none => .err .keyErr
    | some url =>
      .ok ⟨cfg.name.getD (nameFromUrl url),
           cfg.dpath.getD
             (cfg.codeDpath.getD "" ++ "/" ++ cfg.name.getD (nameFromUrl url)),
           remote, remotes, cfg.branch.getD "master", url⟩

/-- The remote-url rewrite loop of `set_protocol` (repo.py lines
300-301): every remote url is re-rendered under the requested protocol;
a url that parses under neither syntax raises (`none` for the whole
operation). -/
def formatRemotes (protocol : String) :
    List (String × String) → Option (List (String × String))
  | [] => some []
  | kv :: rest =>
    match GitURL.format kv.2 protocol with
    | none => none
    | some v =>
      match formatRemotes protocol rest with
      | none => none
      | some rest' => some ((kv.1, v) :: rest')

/-- Model of `Repo.set_protocol` (repo.py lines 289-301): re-render the base url
and every remote url under the requested protocol. -/
def setProtocol (r : Repo) (protocol : String) : Option Repo :=
  match GitURL.format r.url protocol with
  | none => none
  | some u =>
    match formatRemotes protocol r.remotes with
    | none => none
    | some rs => some { r with url := u, remotes := rs }

/-- The Repository Descriptor invariant of the spec: the remotes map is
non-empty, the active remote resolves within it, and the derived url is
the active remote's url. -/
def Repo.invariant (r : Repo) : Prop :=
  r.remotes ≠ [] ∧ r.remotes.lookup r.remote = some r.url

/-- The desired local state of a repository: cloned, clean, active
remote registered with the desired url, desired branch known to the
remote and checked out, upstream tracking pointing at the active
remote. -/
def desiredState (r : Repo) (s : GitState) : Prop :=
  s.dpathExists = true ∧ s.dirty = false ∧
  (s.registered.lookup r.remote).isSome ∧
  r.url ∈ (s.registered.lookup r.remote).getD [] ∧
  r.branch ∈ refsOf s r.remote ∧
  s.activeBranch = some r.branch ∧
  (∃ b, s.trackingBranch = some (r.remote, b))

/-! ## Auxiliary predicates for the URL theorems -/

/-- A host group as produced by either pattern: non-empty, all
characters in `[a-z0-9_.-]`. -/
def hostOk (h : List Char) : Prop :=
  h ≠ [] ∧ ∀ c ∈ h, isHostChar c = true

/-- A path group as produced by `.*\.git`: newline-free and ending in
`".git"`. -/
def gitPath (p : List Char) : Prop :=
  (∀ c ∈ p, isDotChar c = true) ∧ ∃ q, p = q ++ ['.', 'g', 'i', 't']

/-- Does the list contain the substring `"://"`? -/
def containsCSS : List Char → Bool
  | [] => false
  | c :: t => (c = ':' && listStartsWith t ['/', '/']) || containsCSS t

/-! ## Concrete fixtures used by the witness theorems -/

def sampleRepo : Repo :=
  ⟨"proj", "/code/proj", "origin", [("origin", "https://host/group/proj.git")],
   "main", "https://host/group/proj.git"⟩

def sampleState : GitState :=
  { dpathExists := true, dirty := false
    registered := [("origin", ["https://host/group/proj.git"])]
    remoteRefs := [("origin", ["main", "dev/1.2"])]
    remoteRefsAfterFetch := [("origin", ["main", "dev/1.2"])]
    activeBranch := some "main"
    trackingBranch := some ("origin", "main")
    tags := []
    headSha := "abc"
    cloneFails := false, remoteAddFails := [], checkoutFails := [], checkoutTrackFails := [] }

/-! # Theorems

Helper lemmas first, then one theorem per claim (with a witness theorem
for the claims whose theorem carries hypotheses). -/

/-- String append is associative (list append on the character data). -/
theorem strAppendAssoc (a b c : String) : a ++ b ++ c = a ++ (b ++ c) := by
  rcases a with ⟨la⟩
  rcases b with ⟨lb⟩
  rcases c with ⟨lc⟩
  show String.mk (la ++ lb ++ lc) = String.mk (la ++ (lb ++ lc))
  rw [List.append_assoc]

theorem ensureRemotesGo_dry_cmds (r : Repo) (s : GitState) (L : List (String × String))
    (cmds added : List String) :
    (ensureRemotesGo r s true L cmds added).1 = cmds := by
  induction L generalizing cmds added with
  | nil => rfl
  | cons kv rest ih =>
    obtain ⟨rname, rurl⟩ := kv
    unfold ensureRemotesGo
    by_cases hk : (s.registered.lookup rname).isSome
    · simp [hk, ih]
    · simp [hk]

theorem registeredRemote_dry_cmds (r : Repo) (s : GitState) :
    (registeredRemote r s true).1 = [] := by
  have hc : (ensureRemotes r s true).1 = [] :=
    ensureRemotesGo_dry_cmds r s r.remotes [] []
  unfold registeredRemote
  by_cases hk : (s.registered.lookup r.remote).isSome
  · simp [hk]
  · simp only [hk, if_false, Bool.false_eq_true]
    rcases he : ensureRemotes r s true with ⟨ec, eo⟩
    rw [he] at hc
    simp only at hc
    cases eo with
    | err e => simp [hc]
    | ok added => by_cases hm : r.remote ∈ added <;> simp [hc, hm]

theorem checkoutStep_dry (r : Repo) (s : GitState) (rname : String) :
    checkoutStep r s rname true = ([], .ok ()) := rfl

theorem upstreamStep_dry_cmds (r : Repo) (s : GitState) (added : List String) :
    (upstreamStep r s added true).1 = [] := by
  unfold upstreamStep
  by_cases h1 : ((s.registered.lookup r.remote).isSome || decide (r.remote ∈ added)) = true
  · by_cases h2 : r.branch ∈ refsOf s r.remote <;> simp [h1, h2]
  · simp [h1]

theorem ensure_dry_cmds (r : Repo) (s : GitState) : (ensure r s true).cmds = [] := by
  unfold ensure
  by_cases hex : s.dpathExists
  · have hrr : (registeredRemote r s true).1 = [] := registeredRemote_dry_cmds r s
    rcases he : registeredRemote r s true with ⟨rc, ro⟩
    rw [he] at hrr
    simp only at hrr
    subst hrr
    by_cases hdirty : s.dirty
    · simp [hex, assertClean, hdirty]
    · simp only [hex, assertClean, hdirty, Bool.not_true, Bool.false_and, Bool.and_false,
        Bool.false_eq_true, if_false, ite_false, ite_true, he]
      cases ro with
      | err e => simp
      | ok v =>
        obtain ⟨rname?, added⟩ := v
        cases rname? with
        | none => simp
        | some rname =>
          simp only
          by_cases hb : r.branch ∈ refsOf s rname <;>
          by_cases hu : r.url ∈ urlsOf r s added rname <;>
          · rcases hab : s.activeBranch with _ | ab
            · by_cases hc : (s.tags.filter (fun t => t.1 = r.branch)).length = 1 <;>
                by_cases hsha :
                  s.headSha = ((s.tags.filter (fun t => t.1 = r.branch)).head?.getD ("", "")).2 <;>
                simp_all [checkoutStep_dry]
            · rcases htb : s.trackingBranch with _ | tb
              · by_cases hob : r.branch = ab <;>
                  simp_all [checkoutStep_dry, upstreamStep_dry_cmds]
              · by_cases hob : r.branch = ab <;>
                  by_cases htr : tb.1 = r.remote <;>
                  simp_all [checkoutStep_dry, upstreamStep_dry_cmds]
  · simp [hex]

/-- C1: for every repository and every observed local state, the dry
run of `ensure` (and therefore `check`) records zero shell commands:
no clone, fetch, remote add, remote set-url, checkout or set-upstream
command is issued on any branch of `ensure` when `dry` is true. -/
theorem c1_check_zero_mutations (r : Repo) (s : GitState) :
    (ensure r s true).cmds = [] ∧ (check r s).cmds = [] :=
  ⟨ensure_dry_cmds r s, ensure_dry_cmds r s⟩

/-- C2: `_assert_clean` fails with `DirtyRepoError` exactly when the
working copy reports dirty, and a dirty working copy makes `ensure`
(live mode, working copy present) and `pull` stop at the guard with
`DirtyRepoError`, recording no shell command at all. -/
theorem c2_assert_clean_guard (r : Repo) (s : GitState) :
    (assertClean s = .err .dirtyRepo ↔ s.dirty = true) ∧
    (s.dirty = true → pull r s = ⟨[], .err .dirtyRepo⟩) ∧
    (s.dpathExists = true → s.dirty = true → ensure r s false = ⟨[], .err .dirtyRepo⟩) := by
  refine ⟨?_, ?_, ?_⟩
  · unfold assertClean
    by_cases h : s.dirty <;> simp [h]
  · intro h
    simp [pull, assertClean, h]
  · intro hex h
    simp [ensure, assertClean, hex, h]

theorem c2_assert_clean_guard_witness :
    pull sampleRepo { sampleState with dirty := true } = ⟨[], .err .dirtyRepo⟩ ∧
    ensure sampleRepo { sampleState with dirty := true } false = ⟨[], .err .dirtyRepo⟩ :=
  ⟨(c2_assert_clean_guard sampleRepo { sampleState with dirty := true }).2.1 rfl,
   (c2_assert_clean_guard sampleRepo { sampleState with dirty := true }).2.2 rfl rfl⟩

/-- C4: the sequential batch `apply` over `[A(dirty), B(clean)]` with a
mutating operation (`pull`) processes both repositories: A's
`DirtyRepoError` is caught at the batch level and logged, B's operation
completes normally, and the batch call itself does not fail. -/
theorem c4_batch_dirty_caught (rA rB : Repo) (sA sB : GitState)
    (hA : sA.dirty = true) (hB : sB.dirty = false) :
    applySeq pull [(rA, sA), (rB, sB)]
      = .ok ⟨[rA.name, rB.name], ["Ignoring dirty repo=" ++ rA.name]⟩ ∧
    pull rB sB = ⟨["git pull"], .ok ()⟩ := by
  constructor
  · simp [applySeq, pull, assertClean, hA, hB]
  · simp [pull, assertClean, hB]

theorem c4_batch_dirty_caught_witness :
    applySeq pull [(sampleRepo, { sampleState with dirty := true }),
        ({ sampleRepo with name := "b" }, sampleState)]
      = .ok ⟨["proj", "b"], ["Ignoring dirty repo=proj"]⟩ :=
  (c4_batch_dirty_caught sampleRepo { sampleRepo with name := "b" }
    { sampleState with dirty := true } sampleState rfl rfl).1

/-- C6: `ensure` is idempotent: on a repository already in the desired
state (cloned, clean, active remote registered with the desired url,
desired branch known, checked out and tracking the active remote), a
live run of `ensure` records an empty command list and succeeds, so a
second consecutive run issues an empty action list as well. -/
theorem c6_ensure_idempotent (r : Repo) (s : GitState) (h : desiredState r s) :
    ensure r s false = ⟨[], .ok ()⟩ := by
  obtain ⟨hex, hcl, hreg, hurl, hbr, hab, b, htb⟩ := h
  obtain ⟨us, hus⟩ := Option.isSome_iff_exists.mp hreg
  rw [hus] at hurl
  simp only [Option.getD_some] at hurl
  have hrr : registeredRemote r s false = ([], .ok (some r.remote, [])) := by
    unfold registeredRemote
    simp [hreg]
  have hurls : urlsOf r s [] r.remote = us := by
    unfold urlsOf
    rw [hus]
  simp [ensure, hex, assertClean, hcl, hrr, hbr, hurls, hurl, hab, htb]

theorem c6_ensure_idempotent_witness :
    ensure sampleRepo sampleState false = ⟨[], .ok ()⟩ :=
  c6_ensure_idempotent sampleRepo sampleState
    ⟨rfl, rfl, rfl, by decide, by decide, rfl, "main", rfl⟩

/-- C7: protocol re-rendering: `format("https")` on the ssh-syntax url
`git@host:group/name.git` yields `https://host/group/name.git`, and
`format("ssh")` on `https://host/group/name.git` yields
`git@host:group/name.git`; in general the ssh form forces the user to
`git@` and drops the port, and the transport form drops the user (and
port). -/
theorem c7_format_protocols :
    GitURL.format "git@host:group/name.git" "https" = some "https://host/group/name.git" ∧
    GitURL.format "https://host/group/name.git" "ssh" = some "git@host:group/name.git" ∧
    (∀ u i, GitURL.parts u = some i →
      GitURL.format u "ssh" = some ("git@" ++ i.host ++ ":" ++ i.path)) ∧
    (∀ u i p, GitURL.parts u = some i → p ≠ "ssh" →
      GitURL.format u p = some (p ++ "://" ++ i.host ++ "/" ++ i.path)) := by
  refine ⟨by decide, by decide, ?_, ?_⟩
  · intro u i hp
    simp [GitURL.format, hp]
  · intro u i p hp hne
    simp [GitURL.format, hp, hne]

theorem c7_format_protocols_witness :
    GitURL.format "git@host:group/name.git" "ssh"
      = some ("git@" ++ "host" ++ ":" ++ "group/name.git") ∧
    GitURL.format "https://host/group/name.git" "https"
      = some ("https" ++ "://" ++ "host" ++ "/" ++ "group/name.git") :=
  ⟨c7_format_protocols.2.2.1 "git@host:group/name.git"
      ⟨Syn.ssh, "", "git@", "host", "", "group/name.git"⟩ (by decide),
   c7_format_protocols.2.2.2 "https://host/group/name.git"
      ⟨Syn.url, "https://", "", "host", "", "group/name.git"⟩ "https" (by decide) (by decide)⟩

/-- C10: url parsing only accepts hosts over `[a-z0-9_.-]`: the
otherwise well-formed urls `git@Host.com:path.git` and
`https://Host.com/path.git`, whose hosts contain an uppercase letter,
match neither syntax pattern and make `parts` raise the invalid-url
error, while their lowercase forms parse. -/
theorem c10_uppercase_host_rejected :
    GitURL.parts "git@Host.com:path.git" = none ∧
    GitURL.parts "https://Host.com/path.git" = none ∧
    GitURL.parts "git@host.com:path.git" ≠ none ∧
    GitURL.parts "https://host.com/path.git" ≠ none := by decide

/-- C8 counterexample: repeated same-protocol formatting is not
idempotent.  Formatting `https://host/a://h/p.git.git` with protocol
`ssh` yields `git@host:a://h/p.git.git`, whose path contains `://`, so
re-parsing matches the url pattern inside the path and a second
`format("ssh")` yields the different string `git@h:p.git.git`. -/
theorem c8_idempotence_counterexample :
    GitURL.format "https://host/a://h/p.git.git" "ssh"
      = some "git@host:a://h/p.git.git" ∧
    GitURL.format "git@host:a://h/p.git.git" "ssh"
      = some "git@h:p.git.git" ∧
    ("git@h:p.git.git" : String) ≠ "git@host:a://h/p.git.git" := by decide

/-- C5: `upgrade` selects the remote `dev/<dotted-integers>` branch
with the greatest parsed numeric tuple (`dev/2.0` beats `dev/1.10`
beats `dev/1.2`, numerically rather than lexically), skips
non-parsable names such as `dev/foo`, performs no branch switch when
the current branch is already the selected one, and otherwise checks
the selected branch out, falling back to creating a tracking branch
(the fetch having been issued at the start of `upgrade`). -/
theorem c5_upgrade_selection (r : Repo) (s : GitState)
    (hreg : (s.registered.lookup r.remote).isSome = true)
    (hrefs : refsAfterFetchOf s r.remote
      = ["dev/1.2", "dev/foo", "dev/1.10", "dev/2.0", "main"]) :
    upgradeTarget ["dev/1.2", "dev/1.10", "dev/2.0", "main"] = some "dev/2.0" ∧
    upgradeTarget (refsAfterFetchOf s r.remote) = some "dev/2.0" ∧
    (s.activeBranch = some "dev/2.0" →
      upgrade r s = ⟨["git fetch " ++ r.remote], .ok ()⟩) ∧
    (s.activeBranch = some "main" → "dev/2.0" ∉ s.checkoutFails →
      upgrade r s = ⟨["git fetch " ++ r.remote, "git checkout dev/2.0"], .ok ()⟩) ∧
    (s.activeBranch = some "main" → "dev/2.0" ∈ s.checkoutFails →
        "dev/2.0" ∉ s.checkoutTrackFails →
      upgrade r s = ⟨["git fetch " ++ r.remote, "git checkout dev/2.0",
        "git checkout -b dev/2.0 " ++ r.remote ++ "/dev/2.0"], .ok ()⟩) := by
  have hrr : registeredRemote r s false = ([], .ok (some r.remote, [])) := by
    unfold registeredRemote
    simp [hreg]
  have htgt : upgradeTarget (refsAfterFetchOf s r.remote) = some "dev/2.0" := by
    rw [hrefs]
    decide
  have hne : ("main" : String) ≠ "dev/2.0" := by decide
  refine ⟨by decide, htgt, ?_, ?_, ?_⟩
  · intro hab
    simp [upgrade, hrr, htgt, hab]
  · intro hab hcf
    simp only [upgrade, hrr, htgt, hab]
    simp [hne, hcf]
  · intro hab hcf hct
    simp only [upgrade, hrr, htgt, hab]
    simp [hne, hcf, hct]
    rw [strAppendAssoc]
    congr 1

theorem c5_upgrade_selection_witness :
    upgrade sampleRepo { sampleState with
        remoteRefsAfterFetch :=
          [("origin", ["dev/1.2", "dev/foo", "dev/1.10", "dev/2.0", "main"])],
        activeBranch := some "dev/2.0" }
      = ⟨["git fetch " ++ sampleRepo.remote], .ok ()⟩ :=
  (c5_upgrade_selection sampleRepo
    { sampleState with
        remoteRefsAfterFetch :=
          [("origin", ["dev/1.2", "dev/foo", "dev/1.10", "dev/2.0", "main"])],
        activeBranch := some "dev/2.0" }
    (by decide) (by decide)).2.2.1 rfl

theorem formatRemotes_lookup (p : String) (l l' : List (String × String)) (k : String)
    (h : formatRemotes p l = some l') :
    l'.lookup k = (l.lookup k).bind fun v => GitURL.format v p := by
  induction l generalizing l' with
  | nil =>
    simp only [formatRemotes, Option.some_inj] at h
    subst h
    simp [List.lookup]
  | cons kv rest ih =>
    unfold formatRemotes at h
    rcases hf : GitURL.format kv.2 p with _ | v <;> rw [hf] at h
    · exact absurd h (by simp)
    · rcases hm : formatRemotes p rest with _ | rest' <;> rw [hm] at h
      · exact absurd h (by simp)
      · simp only [Option.some_inj] at h
        subst h
        by_cases hk : k = kv.1
        · simp [List.lookup, hk, hf]
        · have hb : (k == kv.1) = false := beq_eq_false_iff_ne.mpr hk
          simp [List.lookup, hb, ih rest' hm]

/-- C9: after a successful construction the descriptor invariant holds
(the remotes map is non-empty, the active remote resolves within it,
and the derived url is the active remote's entry), and a successful
protocol rewrite (`set_protocol`) preserves it. -/
theorem c9_descriptor_invariant (cfg : RepoCfg) (obs : List (String × String))
    (r r' : Repo) (p : String) :
    (Repo.init cfg obs = .ok r → r.invariant) ∧
    (r.invariant → setProtocol r p = some r' → r'.invariant) := by
  constructor
  · intro h
    unfold Repo.init at h
    split at h
    next => exact absurd h (by simp)
    next remotes remote hres =>
      split at h
      next => exact absurd h (by simp)
      next url hurl =>
        simp only [Outcome.ok.injEq] at h
        subst h
        refine ⟨fun hnil => ?_, hurl⟩
        rw [show remotes = [] from hnil] at hurl
        simp [List.lookup] at hurl
  · intro hinv hset
    unfold setProtocol at hset
    split at hset
    next => exact absurd hset (by simp)
    next u hu =>
      split at hset
      next => exact absurd hset (by simp)
      next rs hrs =>
        simp only [Option.some_inj] at hset
        subst hset
        obtain ⟨hne, hlook⟩ := hinv
        have hl : rs.lookup r.remote = GitURL.format r.url p := by
          have h0 := formatRemotes_lookup p r.remotes rs r.remote hrs
          rw [hlook] at h0
          exact h0
        rw [hu] at hl
        refine ⟨fun hnil => ?_, hl⟩
        rw [show rs = [] from hnil] at hl
        simp [List.lookup] at hl

theorem c9_descriptor_invariant_witness :
    (Repo.mk "proj" "/code/proj" "origin"
      [("origin", "https://host/group/proj.git")] "master"
      "https://host/group/proj.git").invariant ∧
    (Repo.mk "proj" "/code/proj" "origin"
      [("origin", "git@host:group/proj.git")] "main"
      "git@host:group/proj.git").invariant :=
  ⟨(c9_descriptor_invariant
      ⟨none, none, some "/code", none, some "https://host/group/proj.git", none⟩ []
      (Repo.mk "proj" "/code/proj" "origin"
        [("origin", "https://host/group/proj.git")] "master"
        "https://host/group/proj.git")
      sampleRepo "ssh").1 (by decide),
   (c9_descriptor_invariant
      ⟨none, none, some "/code", none, some "https://host/group/proj.git", none⟩ []
      sampleRepo
      (Repo.mk "proj" "/code/proj" "origin"
        [("origin", "git@host:group/proj.git")] "main"
        "git@host:group/proj.git") "ssh").2 ⟨by decide, by decide⟩ (by decide)⟩

/-- C3 counterexample: in dry mode on a repository whose active remote
is not registered, `_registered_remote` does not return `None`: the
`AssertionError` raised inside `_ensure_remotes` is not caught by its
`except ShellException` clause and propagates. -/
theorem c3_dry_none_counterexample :
    (registeredRemote sampleRepo { sampleState with registered := [] } true).2
      = .err .assertionErr ∧
    (registeredRemote sampleRepo { sampleState with registered := [] } true).2
      ≠ .ok (none, []) := by decide

theorem ensureRemotesGo_dry_err (r : Repo) (s : GitState)
    (L : List (String × String)) (cmds added : List String)
    (hmem : ∃ kv ∈ L, (s.registered.lookup kv.1).isSome = false) :
    (ensureRemotesGo r s true L cmds added).2 = .err .assertionErr := by
  induction L generalizing cmds added with
  | nil => simp at hmem
  | cons kv rest ih =>
    obtain ⟨rname, rurl⟩ := kv
    unfold ensureRemotesGo
    by_cases hk : (s.registered.lookup rname).isSome
    · simp only [hk, if_true, ite_true]
      apply ih
      rcases hmem with ⟨kv', hkv', hmiss⟩
      rcases List.mem_cons.mp hkv' with h | h
      · subst h
        simp only at hmiss
        rw [hk] at hmiss
        exact absurd hmiss (by simp)
      · exact ⟨kv', h, hmiss⟩
    · simp [hk]

theorem ensureRemotesGo_live_ok (r : Repo) (s : GitState)
    (L : List (String × String)) (cmds added : List String)
    (hfail : ∀ kv ∈ L, kv.1 ∉ s.remoteAddFails) :
    ∃ cs added', ensureRemotesGo r s false L cmds added = (cs, .ok added') ∧
      added ⊆ added' ∧
      ∀ n ∈ L.map Prod.fst, (s.registered.lookup n).isSome = false → n ∈ added' := by
  induction L generalizing cmds added with
  | nil => exact ⟨cmds, added, rfl, List.Subset.refl added, by simp⟩
  | cons kv rest ih =>
    obtain ⟨rname, rurl⟩ := kv
    have hfr : ∀ kv ∈ rest, kv.1 ∉ s.remoteAddFails := fun kv hkv =>
      hfail kv (List.mem_cons_of_mem _ hkv)
    by_cases hk : (s.registered.lookup rname).isSome
    · obtain ⟨cs, added', heq, hsub, hmem⟩ := ih cmds added hfr
      refine ⟨cs, added', ?_, hsub, ?_⟩
      · unfold ensureRemotesGo
        simp only [hk, if_true, ite_true]
        exact heq
      · intro n hn hmiss
        rcases List.mem_cons.mp hn with h | h
        · subst h
          rw [hk] at hmiss
          exact absurd hmiss (by simp)
        · exact hmem n h hmiss
    · have hadd : rname ∉ s.remoteAddFails := hfail (rname, rurl) (List.mem_cons_self _ _)
      obtain ⟨cs, added', heq, hsub, hmem⟩ :=
        ih (cmds ++ ["git remote add " ++ rname ++ " " ++ rurl]) (added ++ [rname]) hfr
      refine ⟨cs, added', ?_, ?_, ?_⟩
      · unfold ensureRemotesGo
        simp only [hk, if_false, Bool.false_eq_true, ite_false]
        simp only [hadd, if_false, ite_false]
        exact heq
      · exact fun x hx => hsub (List.mem_append_left _ hx)
      · intro n hn hmiss
        rcases List.mem_cons.mp hn with h | h
        · subst h
          exact hsub (List.mem_append_right _ (List.mem_singleton.mpr rfl))
        · exact hmem n h hmiss

/-- C3 amended: `_registered_remote` attempts to add a remote only in
non-dry mode (a dry run records no command at all); but in dry mode a
repository whose active remote is unregistered makes it raise an
`AssertionError` rather than return `None`, while in non-dry mode with
the add commands succeeding it returns the resolved active remote. -/
theorem c3_registered_remote_amended (r : Repo) (s : GitState) :
    ((registeredRemote r s true).1 = []) ∧
    ((s.registered.lookup r.remote).isSome = false →
      r.remote ∈ r.remotes.map Prod.fst →
      (registeredRemote r s true).2 = .err .assertionErr) ∧
    ((s.registered.lookup r.remote).isSome = false →
      (∀ n ∈ r.remotes.map Prod.fst, n ∉ s.remoteAddFails) →
      r.remote ∈ r.remotes.map Prod.fst →
      ∃ added, (registeredRemote r s false).2 = .ok (some r.remote, added)) := by
  refine ⟨registeredRemote_dry_cmds r s, ?_, ?_⟩
  · intro hmiss hmem
    have hex : ∃ kv ∈ r.remotes, (s.registered.lookup kv.1).isSome = false := by
      rcases List.mem_map.mp hmem with ⟨kv, hkv, hfst⟩
      exact ⟨kv, hkv, by rw [hfst]; exact hmiss⟩
    have herr := ensureRemotesGo_dry_err r s r.remotes [] [] hex
    unfold registeredRemote
    simp only [hmiss, if_false, Bool.false_eq_true, ite_false]
    rcases he : ensureRemotes r s true with ⟨ec, eo⟩
    unfold ensureRemotes at he
    rw [he] at herr
    simp only at herr
    subst herr
    simp
  · intro hmiss hfail hmem
    have hf : ∀ kv ∈ r.remotes, kv.1 ∉ s.remoteAddFails := fun kv hkv =>
      hfail kv.1 (List.mem_map.mpr ⟨kv, hkv, rfl⟩)
    obtain ⟨cs, added', heq, _, hin⟩ := ensureRemotesGo_live_ok r s r.remotes [] [] hf
    have hr : r.remote ∈ added' := hin r.remote hmem hmiss
    refine ⟨added', ?_⟩
    unfold registeredRemote ensureRemotes
    simp only [hmiss, if_false, Bool.false_eq_true, ite_false]
    rw [heq]
    simp [hr]

theorem c3_registered_remote_amended_witness :
    (registeredRemote sampleRepo { sampleState with registered := [] } true).1 = [] ∧
    (registeredRemote sampleRepo { sampleState with registered := [] } true).2
      = .err .assertionErr ∧
    ∃ added,
      (registeredRemote sampleRepo { sampleState with registered := [] } false).2
        = .ok (some sampleRepo.remote, added) :=
  ⟨(c3_registered_remote_amended sampleRepo { sampleState with registered := [] }).1,
   (c3_registered_remote_amended sampleRepo { sampleState with registered := [] }).2.1
     rfl (by decide),
   (c3_registered_remote_amended sampleRepo { sampleState with registered := [] }).2.2
     rfl (by decide) (by decide)⟩

/-! ## Lemmas about the pattern matchers (towards the C8 theorem) -/

theorem takeRun_sound (p : Char → Bool) (l a b : List Char) (h : takeRun p l = (a, b)) :
    l = a ++ b ∧ (∀ c ∈ a, p c = true) ∧ ∀ c cs, b = c :: cs → p c = false := by
  induction l generalizing a b with
  | nil =>
    simp only [takeRun, Prod.mk.injEq] at h
    obtain ⟨h1, h2⟩ := h
    subst h1
    subst h2
    exact ⟨rfl, by simp, by simp⟩
  | cons c cs ih =>
    unfold takeRun at h
    by_cases hp : p c
    · rw [if_pos hp] at h
      rcases ht : takeRun p cs with ⟨a', b'⟩
      rw [ht] at h
      simp only [Prod.mk.injEq] at h
      obtain ⟨h1, h2⟩ := h
      subst h1
      subst h2
      obtain ⟨g1, g2, g3⟩ := ih a' b' ht
      refine ⟨by rw [List.cons_append, g1], ?_, g3⟩
      intro x hx
      rcases List.mem_cons.mp hx with hx | hx
      · rw [hx]; exact hp
      · exact g2 x hx
    · rw [if_neg hp] at h
      simp only [Prod.mk.injEq] at h
      obtain ⟨h1, h2⟩ := h
      subst h1
      subst h2
      refine ⟨rfl, by simp, ?_⟩
      intro x xs hxx
      cases hxx
      simpa using hp

theorem takeRun_exact (p : Char → Bool) (a b : List Char)
    (ha : ∀ c ∈ a, p c = true) (hb : ∀ c cs, b = c :: cs → p c = false) :
    takeRun p (a ++ b) = (a, b) := by
  induction a with
  | nil =>
    cases b with
    | nil => rfl
    | cons c cs =>
      simp only [List.nil_append, takeRun]
      rw [if_neg]
      simp [hb c cs rfl]
  | cons c a' iha =>
    simp only [List.cons_append, takeRun, List.append_eq]
    rw [if_pos (ha c (List.mem_cons_self _ _))]
    rw [iha (fun x hx => ha x (List.mem_cons_of_mem _ hx))]

theorem splitAtFirstAmp_sound (l a r : List Char) (h : splitAtFirstAmp l = some (a, r)) :
    l = a ++ r ∧ ∃ m, a = m ++ ['@'] ∧ ∀ c ∈ m, c ≠ '@' := by
  induction l generalizing a r with
  | nil => simp [splitAtFirstAmp] at h
  | cons c cs ih =>
    unfold splitAtFirstAmp at h
    by_cases hc : c = '@'
    · rw [if_pos hc] at h
      simp only [Option.some_inj, Prod.mk.injEq] at h
      obtain ⟨h1, h2⟩ := h
      subst h1
      subst h2
      exact ⟨rfl, [], by simp [hc], by simp⟩
    · rw [if_neg hc] at h
      rcases hs : splitAtFirstAmp cs with _ | ⟨a', r'⟩ <;> rw [hs] at h
      · simp at h
      · simp only [Option.some_inj, Prod.mk.injEq] at h
        obtain ⟨h1, h2⟩ := h
        subst h1
        subst h2
        obtain ⟨g1, m, hm, hnm⟩ := ih a' r' hs
        refine ⟨by rw [List.cons_append, g1], c :: m, by rw [hm, List.cons_append], ?_⟩
        intro x hx
        rcases List.mem_cons.mp hx with hx | hx
        · rw [hx]; exact hc
        · exact hnm x hx

theorem splitAtFirstAmp_compute (m r : List Char) (hm : ∀ c ∈ m, c ≠ '@') :
    splitAtFirstAmp (m ++ '@' :: r) = some (m ++ ['@'], r) := by
  induction m with
  | nil => simp [splitAtFirstAmp]
  | cons c m' ih =>
    simp only [List.cons_append, splitAtFirstAmp, List.append_eq]
    rw [if_neg (hm c (List.mem_cons_self _ _))]
    rw [ih (fun x hx => hm x (List.mem_cons_of_mem _ hx))]

theorem splitAtFirstAmp_none (l : List Char) (h : ∀ c ∈ l, c ≠ '@') :
    splitAtFirstAmp l = none := by
  induction l with
  | nil => rfl
  | cons c cs ih =>
    simp only [splitAtFirstAmp]
    rw [if_neg (h c (List.mem_cons_self _ _))]
    rw [ih (fun x hx => h x (List.mem_cons_of_mem _ hx))]

theorem matchUser_sound (l u r : List Char) (h : matchUser l = some (u, r)) :
    l = u ++ r ∧ ∃ c m, u = c :: m ++ ['@'] ∧ isWordChar c = true ∧ ∀ x ∈ m, x ≠ '@' := by
  cases l with
  | nil => simp [matchUser] at h
  | cons c cs =>
    simp only [matchUser] at h
    by_cases hc : isWordChar c
    · rw [if_pos hc] at h
      rcases hs : splitAtFirstAmp cs with _ | ⟨a, r'⟩ <;> rw [hs] at h
      · simp at h
      · simp only [Option.some_inj, Prod.mk.injEq] at h
        obtain ⟨h1, h2⟩ := h
        subst h1
        subst h2
        obtain ⟨g1, m, hm, hnm⟩ := splitAtFirstAmp_sound cs a r' hs
        exact ⟨by rw [List.cons_append, g1], c, m, by simp [hm], hc, hnm⟩
    · rw [if_neg hc] at h
      simp at h

theorem matchUser_compute (c : Char) (m r : List Char) (hc : isWordChar c = true)
    (hm : ∀ x ∈ m, x ≠ '@') :
    matchUser (c :: m ++ '@' :: r) = some (c :: m ++ ['@'], r) := by
  simp only [List.cons_append, matchUser, List.append_eq]
  rw [if_pos hc, splitAtFirstAmp_compute m r hm]

theorem matchUser_mono (l u r e : List Char) (h : matchUser l = some (u, r)) :
    matchUser (l ++ e) = some (u, r ++ e) := by
  obtain ⟨h1, c, m, hu, hc, hm⟩ := matchUser_sound l u r h
  subst h1
  subst hu
  have : c :: m ++ ['@'] ++ r ++ e = c :: m ++ '@' :: (r ++ e) := by simp
  rw [this, matchUser_compute c m (r ++ e) hc hm]

theorem matchUser_none (l : List Char) (h : ∀ x ∈ l, x ≠ '@') : matchUser l = none := by
  cases l with
  | nil => rfl
  | cons c cs =>
    simp only [matchUser]
    by_cases hc : isWordChar c
    · rw [if_pos hc, splitAtFirstAmp_none cs (fun x hx => h x (List.mem_cons_of_mem _ hx))]
    · rw [if_neg hc]

theorem matchTransport_sound (l t r : List Char) (h : matchTransport l = some (t, r)) :
    ∃ w, t = w ++ [':', '/', '/'] ∧ l = w ++ ':' :: '/' :: '/' :: r ∧ w ≠ [] ∧
      ∀ c ∈ w, isWordChar c = true := by
  unfold matchTransport at h
  rcases ht : takeRun isWordChar l with ⟨w, rest⟩
  rw [ht] at h
  simp only at h
  by_cases hw : w.isEmpty
  · rw [if_pos hw] at h
    simp at h
  · rw [if_neg hw] at h
    obtain ⟨g1, g2, _⟩ := takeRun_sound isWordChar l w rest ht
    rcases rest with _ | ⟨c1, _ | ⟨c2, _ | ⟨c3, r'⟩⟩⟩ <;> simp only at h
    · simp at h
    · simp at h
    · simp at h
    · by_cases hcs : c1 = ':' ∧ c2 = '/' ∧ c3 = '/'
      · rw [if_pos hcs] at h
        simp only [Option.some_inj, Prod.mk.injEq] at h
        obtain ⟨h1, h2⟩ := h
        subst h1
        subst h2
        obtain ⟨e1, e2, e3⟩ := hcs
        subst e1
        subst e2
        subst e3
        exact ⟨w, rfl, g1, by simpa using hw, g2⟩
      · rw [if_neg hcs] at h
        simp at h

theorem matchTransport_compute (w r : List Char) (hw : w ≠ [])
    (hall : ∀ c ∈ w, isWordChar c = true) :
    matchTransport (w ++ ':' :: '/' :: '/' :: r) = some (w ++ [':', '/', '/'], r) := by
  unfold matchTransport
  rw [takeRun_exact isWordChar w (':' :: '/' :: '/' :: r) hall
    (by intro c cs hcc; cases hcc; decide)]
  simp [hw]

theorem matchTransport_mono (l t r e : List Char) (h : matchTransport l = some (t, r)) :
    matchTransport (l ++ e) = some (t, r ++ e) := by
  obtain ⟨w, htw, hl, hw, hall⟩ := matchTransport_sound l t r h
  subst htw
  subst hl
  have : w ++ ':' :: '/' :: '/' :: r ++ e = w ++ ':' :: '/' :: '/' :: (r ++ e) := by simp
  rw [this, matchTransport_compute w (r ++ e) hw hall]

theorem isTigDot_iff (s : List Char) :
    isTigDot s = true ↔ ∃ s', s = 't' :: 'i' :: 'g' :: '.' :: s' := by
  rcases s with _ | ⟨c1, _ | ⟨c2, _ | ⟨c3, _ | ⟨c4, s'⟩⟩⟩⟩ <;>
    simp [isTigDot, and_assoc]

theorem findGitRev_sound (l s d : List Char) (h : findGitRev l = some (s, d)) :
    l = d ++ s ∧ isTigDot s = true := by
  induction l generalizing s d with
  | nil => simp [findGitRev] at h
  | cons c cs ih =>
    unfold findGitRev at h
    by_cases ht : isTigDot (c :: cs)
    · rw [if_pos ht] at h
      simp only [Option.some_inj, Prod.mk.injEq] at h
      obtain ⟨h1, h2⟩ := h
      subst h1
      subst h2
      exact ⟨rfl, ht⟩
    · rw [if_neg ht] at h
      rcases hf : findGitRev cs with _ | ⟨s', d'⟩ <;> rw [hf] at h
      · simp at h
      · simp only [Option.map_some, Option.some_inj, Prod.mk.injEq] at h
        obtain ⟨h1, h2⟩ := h
        subst h1
        subst h2
        obtain ⟨g1, g2⟩ := ih s' d' hf
        exact ⟨by rw [List.cons_append, g1], g2⟩

theorem findGitRev_head (l : List Char) (h : isTigDot l = true) :
    findGitRev l = some (l, []) := by
  cases l with
  | nil => simp [isTigDot] at h
  | cons c cs =>
    unfold findGitRev
    rw [if_pos h]

theorem findGitRev_append_left (a b : List Char) (s d : List Char)
    (h : findGitRev b = some (s, d)) :
    ∃ s' d', findGitRev (a ++ b) = some (s', d') := by
  induction a with
  | nil => exact ⟨s, d, h⟩
  | cons c a' ih =>
    obtain ⟨s', d', ih'⟩ := ih
    rw [List.cons_append]
    unfold findGitRev
    by_cases ht : isTigDot (c :: (a' ++ b))
    · rw [if_pos ht]
      exact ⟨c :: (a' ++ b), [], rfl⟩
    · rw [if_neg ht, ih']
      exact ⟨s', c :: d', rfl⟩

theorem matchPath_compute (p : List Char) (hp : gitPath p) : matchPath p = some (p, []) := by
  obtain ⟨hdot, q, hq⟩ := hp
  unfold matchPath
  have h1 : takeRun isDotChar p = (p, []) := by
    have := takeRun_exact isDotChar p [] hdot (by simp)
    rwa [List.append_nil] at this
  rw [h1]
  have h2 : isTigDot p.reverse = true := by
    rw [hq]
    simp [isTigDot]
  dsimp only
  rw [findGitRev_head p.reverse h2]
  simp

theorem matchPath_sound (l a b : List Char) (h : matchPath l = some (a, b)) :
    l = a ++ b ∧ gitPath a := by
  unfold matchPath at h
  rcases ht : takeRun isDotChar l with ⟨dd, rest⟩
  rw [ht] at h
  simp only at h
  rcases hf : findGitRev dd.reverse with _ | ⟨s, d⟩ <;> rw [hf] at h
  · simp at h
  · simp only [Option.some_inj, Prod.mk.injEq] at h
    obtain ⟨h1, h2⟩ := h
    subst h1
    subst h2
    obtain ⟨g1, g2, g3⟩ := takeRun_sound isDotChar l dd rest ht
    obtain ⟨f1, f2⟩ := findGitRev_sound dd.reverse s d hf
    have hdd : dd = s.reverse ++ d.reverse := by
      have : dd.reverse.reverse = (d ++ s).reverse := by rw [f1]
      simpa [List.reverse_append] using this
    constructor
    · rw [g1, hdd]
      simp
    · constructor
      · intro c hc
        exact g2 c (by rw [hdd]; exact List.mem_append_left _ hc)
      · obtain ⟨s', hs'⟩ := (isTigDot_iff s).mp f2
        refine ⟨s'.reverse, ?_⟩
        rw [hs']
        simp

theorem matchPath_mono (l a b e : List Char) (h : matchPath l = some (a, b)) :
    ∃ a' b', matchPath (l ++ e) = some (a', b') := by
  unfold matchPath at h ⊢
  rcases ht : takeRun isDotChar l with ⟨dd, rest⟩
  rw [ht] at h
  simp only at h
  rcases hf : findGitRev dd.reverse with _ | ⟨s, d⟩ <;> rw [hf] at h
  · simp at h
  · obtain ⟨g1, g2, g3⟩ := takeRun_sound isDotChar l dd rest ht
    cases rest with
    | cons c cs =>
      have hrest : takeRun isDotChar (l ++ e) = (dd, c :: cs ++ e) := by
        have := takeRun_exact isDotChar dd (c :: cs ++ e) g2
          (by intro x xs hxx; injection hxx with e1 _; subst e1; exact g3 c cs rfl)
        rw [← List.append_assoc, ← g1] at this
        simpa using this
      rw [hrest]
      simp only
      rw [hf]
      exact ⟨s.reverse, d.reverse ++ (c :: cs ++ e), rfl⟩
    | nil =>
      rcases hte : takeRun isDotChar e with ⟨de, re⟩
      obtain ⟨e1, e2, e3⟩ := takeRun_sound isDotChar e de re hte
      have hrest : takeRun isDotChar (l ++ e) = (dd ++ de, re) := by
        have h2 := takeRun_exact isDotChar (dd ++ de) re
          (by
            intro x hx
            rcases List.mem_append.mp hx with hx | hx
            · exact g2 x hx
            · exact e2 x hx) e3
        rw [List.append_assoc] at h2
        rw [g1, List.append_nil, e1]
        exact h2
      rw [hrest]
      simp only
      have : (dd ++ de).reverse = de.reverse ++ dd.reverse := by simp
      rw [this]
      obtain ⟨s', d', hfd⟩ := findGitRev_append_left de.reverse dd.reverse s d hf
      rw [hfd]
      exact ⟨s'.reverse, d'.reverse ++ re, rfl⟩

theorem isHostChar_ne_colon (c : Char) (h : isHostChar c = true) : c ≠ ':' := by
  intro he
  subst he
  simp [isHostChar] at h

theorem isHostChar_ne_slash (c : Char) (h : isHostChar c = true) : c ≠ '/' := by
  intro he
  subst he
  simp [isHostChar] at h

theorem isHostChar_ne_amp (c : Char) (h : isHostChar c = true) : c ≠ '@' := by
  intro he
  subst he
  simp [isHostChar] at h

theorem isEmpty_false_of_ne_nil (l : List Char) (h : l ≠ []) : l.isEmpty = false := by
  cases l with
  | nil => exact absurd rfl h
  | cons c cs => rfl

theorem matchHostTail_compute (t u hst p : List Char) (hh : hostOk hst) (hp : gitPath p) :
    matchHostTail t u (hst ++ '/' :: p) = some ⟨t, u, hst, [], p⟩ := by
  obtain ⟨hne, hall⟩ := hh
  unfold matchHostTail
  rw [takeRun_exact isHostChar hst ('/' :: p) hall
    (by intro c cs hcc; injection hcc with e1 _; subst e1; decide)]
  dsimp only
  rw [if_neg (by simp [isEmpty_false_of_ne_nil hst hne])]
  rw [if_pos rfl]
  rw [matchPath_compute p hp]

theorem matchHostTail_sound (t u l : List Char) (g : UrlGroups)
    (h : matchHostTail t u l = some g) :
    g.transport = t ∧ g.user = u ∧ hostOk g.host ∧ gitPath g.path := by
  unfold matchHostTail at h
  rcases ht : takeRun isHostChar l with ⟨hs, rest⟩
  rw [ht] at h
  dsimp only at h
  obtain ⟨g1, g2, g3⟩ := takeRun_sound isHostChar l hs rest ht
  by_cases he : hs.isEmpty
  · rw [if_pos he] at h
    simp at h
  · rw [if_neg he] at h
    have hne : hs ≠ [] := by
      cases hs
      · simp at he
      · simp
    cases rest with
    | nil => simp at h
    | cons c r2 =>
      dsimp only at h
      by_cases hc : c = '/'
      · rw [if_pos hc] at h
        rcases hmp : matchPath r2 with _ | ⟨p0, lo⟩ <;> rw [hmp] at h <;> dsimp only at h
        · simp at h
        · simp only [Option.some_inj] at h
          subst h
          exact ⟨rfl, rfl, ⟨hne, g2⟩, (matchPath_sound r2 p0 lo hmp).2⟩
      · rw [if_neg hc] at h
        by_cases hc2 : c = ':'
        · rw [if_pos hc2] at h
          rcases hdg : takeRun Char.isDigit r2 with ⟨ds, rest2⟩
          rw [hdg] at h
          dsimp only at h
          by_cases hde : ds.isEmpty
          · rw [if_pos hde] at h
            simp at h
          · rw [if_neg hde] at h
            cases rest2 with
            | nil => simp at h
            | cons c' r4 =>
              dsimp only at h
              by_cases hc' : c' = '/'
              · rw [if_pos hc'] at h
                rcases hmp : matchPath r4 with _ | ⟨p0, lo⟩ <;> rw [hmp] at h <;>
                  dsimp only at h
                · simp at h
                · simp only [Option.some_inj] at h
                  subst h
                  exact ⟨rfl, rfl, ⟨hne, g2⟩, (matchPath_sound r4 p0 lo hmp).2⟩
              · rw [if_neg hc'] at h
                simp at h
        · rw [if_neg hc2] at h
          simp at h

theorem matchHostTail_mono (t u l e : List Char) (g : UrlGroups)
    (h : matchHostTail t u l = some g) :
    ∃ g', matchHostTail t u (l ++ e) = some g' := by
  unfold matchHostTail at h ⊢
  rcases ht : takeRun isHostChar l with ⟨hs, rest⟩
  rw [ht] at h
  dsimp only at h
  obtain ⟨g1, g2, g3⟩ := takeRun_sound isHostChar l hs rest ht
  by_cases he : hs.isEmpty
  · rw [if_pos he] at h
    simp at h
  · rw [if_neg he] at h
    cases rest with
    | nil => simp at h
    | cons c r2 =>
      dsimp only at h
      have hrw : takeRun isHostChar (l ++ e) = (hs, c :: (r2 ++ e)) := by
        have h2 := takeRun_exact isHostChar hs (c :: (r2 ++ e)) g2
          (by intro x xs hxx; injection hxx with e1 _; subst e1; exact g3 c r2 rfl)
        rw [g1, List.append_assoc]
        simpa using h2
      rw [hrw]
      dsimp only
      rw [if_neg he]
      by_cases hc : c = '/'
      · rw [if_pos hc] at h ⊢
        rcases hmp : matchPath r2 with _ | ⟨p0, lo⟩ <;> rw [hmp] at h <;> dsimp only at h
        · simp at h
        · obtain ⟨p', lo', hmp'⟩ := matchPath_mono r2 p0 lo e hmp
          rw [hmp']
          exact ⟨_, rfl⟩
      · rw [if_neg hc] at h ⊢
        by_cases hc2 : c = ':'
        · rw [if_pos hc2] at h ⊢
          rcases hdg : takeRun Char.isDigit r2 with ⟨ds, rest2⟩
          rw [hdg] at h
          dsimp only at h
          obtain ⟨d1, d2, d3⟩ := takeRun_sound Char.isDigit r2 ds rest2 hdg
          by_cases hde : ds.isEmpty
          · rw [if_pos hde] at h
            simp at h
          · rw [if_neg hde] at h
            cases rest2 with
            | nil => simp at h
            | cons c' r4 =>
              dsimp only at h
              have hdg' : takeRun Char.isDigit (r2 ++ e) = (ds, c' :: (r4 ++ e)) := by
                have h2 := takeRun_exact Char.isDigit ds (c' :: (r4 ++ e)) d2
                  (by intro x xs hxx; injection hxx with e1 _; subst e1; exact d3 c' r4 rfl)
                rw [d1, List.append_assoc]
                simpa using h2
              rw [hdg']
              dsimp only
              rw [if_neg hde]
              by_cases hc' : c' = '/'
              · rw [if_pos hc'] at h ⊢
                rcases hmp : matchPath r4 with _ | ⟨p0, lo⟩ <;> rw [hmp] at h <;>
                  dsimp only at h
                · simp at h
                · obtain ⟨p', lo', hmp'⟩ := matchPath_mono r4 p0 lo e hmp
                  rw [hmp']
                  exact ⟨_, rfl⟩
              · rw [if_neg hc'] at h
                simp at h
        · rw [if_neg hc2] at h
          simp at h

theorem matchUrlAt_sound (l : List Char) (g : UrlGroups) (h : matchUrlAt l = some g) :
    hostOk g.host ∧ gitPath g.path ∧ ∃ a b, l = a ++ ':' :: '/' :: '/' :: b := by
  unfold matchUrlAt at h
  rcases hT : matchTransport l with _ | ⟨t, r1⟩ <;> rw [hT] at h <;> dsimp only at h
  · simp at h
  · obtain ⟨w, htw, hl, hw, hwall⟩ := matchTransport_sound l t r1 hT
    have hcss : ∃ a b, l = a ++ ':' :: '/' :: '/' :: b := ⟨w, r1, hl⟩
    rcases hU : matchUser r1 with _ | ⟨uu, r2⟩ <;> rw [hU] at h <;> dsimp only at h
    · obtain ⟨e1, e2, e3, e4⟩ := matchHostTail_sound t [] r1 g h
      exact ⟨e3, e4, hcss⟩
    · rcases hH : matchHostTail t uu r2 with _ | g0 <;> rw [hH] at h <;> dsimp only at h
      · obtain ⟨e1, e2, e3, e4⟩ := matchHostTail_sound t [] r1 g h
        exact ⟨e3, e4, hcss⟩
      · simp only [Option.some_inj] at h
        subst h
        obtain ⟨e1, e2, e3, e4⟩ := matchHostTail_sound t uu r2 g0 hH
        exact ⟨e3, e4, hcss⟩

theorem matchUrlAt_mono (l e : List Char) (g : UrlGroups) (h : matchUrlAt l = some g) :
    ∃ g', matchUrlAt (l ++ e) = some g' := by
  unfold matchUrlAt at h ⊢
  rcases hT : matchTransport l with _ | ⟨t, r1⟩ <;> rw [hT] at h <;> dsimp only at h
  · simp at h
  · rw [matchTransport_mono l t r1 e hT]
    dsimp only
    rcases hU : matchUser r1 with _ | ⟨uu, r2⟩ <;> rw [hU] at h <;> dsimp only at h
    · rcases hU' : matchUser (r1 ++ e) with _ | ⟨uu', r2'⟩ <;> dsimp only
      · obtain ⟨g', hg'⟩ := matchHostTail_mono t [] r1 e g h
        rw [hg']
        exact ⟨g', rfl⟩
      · rcases hH' : matchHostTail t uu' r2' with _ | g'' <;> dsimp only
        · obtain ⟨g', hg'⟩ := matchHostTail_mono t [] r1 e g h
          rw [hg']
          exact ⟨g', rfl⟩
        · exact ⟨g'', rfl⟩
    · rw [matchUser_mono r1 uu r2 e hU]
      dsimp only
      rcases hH : matchHostTail t uu r2 with _ | g0 <;> rw [hH] at h <;> dsimp only at h
      · rcases hH' : matchHostTail t uu (r2 ++ e) with _ | g'' <;> dsimp only
        · obtain ⟨g', hg'⟩ := matchHostTail_mono t [] r1 e g h
          rw [hg']
          exact ⟨g', rfl⟩
        · exact ⟨g'', rfl⟩
      · obtain ⟨g', hg'⟩ := matchHostTail_mono t uu r2 e g0 hH
        rw [hg']
        exact ⟨g', rfl⟩

theorem matchUrlAt_compute_url (w hst p : List Char) (hw : w ≠ [])
    (hwall : ∀ c ∈ w, isWordChar c = true) (hh : hostOk hst) (hp : gitPath p)
    (hat : ∀ x ∈ hst ++ '/' :: p, x ≠ '@') :
    matchUrlAt (w ++ ':' :: '/' :: '/' :: (hst ++ '/' :: p))
      = some ⟨w ++ [':', '/', '/'], [], hst, [], p⟩ := by
  unfold matchUrlAt
  rw [matchTransport_compute w (hst ++ '/' :: p) hw hwall]
  dsimp only
  rw [matchUser_none (hst ++ '/' :: p) hat]
  dsimp only
  rw [matchHostTail_compute (w ++ [':', '/', '/']) [] hst p hh hp]

theorem searchUrl_sound (l : List Char) (g : UrlGroups) (h : searchUrl l = some g) :
    ∃ a b, l = a ++ b ∧ matchUrlAt b = some g := by
  induction l with
  | nil => simp [searchUrl] at h
  | cons c cs ih =>
    unfold searchUrl at h
    rcases hm : matchUrlAt (c :: cs) with _ | g' <;> rw [hm] at h <;> dsimp only at h
    · obtain ⟨a, b, h1, h2⟩ := ih h
      exact ⟨c :: a, b, by rw [List.cons_append, h1], h2⟩
    · simp only [Option.some_inj] at h
      subst h
      exact ⟨[], c :: cs, rfl, hm⟩

theorem matchUrlAt_nil : matchUrlAt [] = none := by decide

theorem searchUrl_some_of_suffix (a b : List Char) (g : UrlGroups)
    (h : matchUrlAt b = some g) : ∃ g', searchUrl (a ++ b) = some g' := by
  induction a with
  | nil =>
    cases b with
    | nil => rw [matchUrlAt_nil] at h; simp at h
    | cons c cs =>
      rw [List.nil_append]
      unfold searchUrl
      rw [h]
      exact ⟨g, rfl⟩
  | cons c a' ih =>
    obtain ⟨g', hg'⟩ := ih
    rw [List.cons_append]
    unfold searchUrl
    rcases hm : matchUrlAt (c :: (a' ++ b)) with _ | g'' <;> dsimp only
    · rw [hg']
      exact ⟨g', rfl⟩
    · exact ⟨g'', rfl⟩

theorem searchSsh_sound (l : List Char) (g : SshGroups) (h : searchSsh l = some g) :
    ∃ a b, l = a ++ b ∧ matchSshAt b = some g := by
  induction l with
  | nil => simp [searchSsh] at h
  | cons c cs ih =>
    unfold searchSsh at h
    rcases hm : matchSshAt (c :: cs) with _ | g' <;> rw [hm] at h <;> dsimp only at h
    · obtain ⟨a, b, h1, h2⟩ := ih h
      exact ⟨c :: a, b, by rw [List.cons_append, h1], h2⟩
    · simp only [Option.some_inj] at h
      subst h
      exact ⟨[], c :: cs, rfl, hm⟩

theorem matchSshAt_sound (l : List Char) (g : SshGroups) (h : matchSshAt l = some g) :
    (∃ rest, l = g.user ++ (g.host ++ ':' :: (g.path ++ rest))) ∧
      hostOk g.host ∧ gitPath g.path ∧
      (∃ c m, g.user = c :: m ++ ['@'] ∧ isWordChar c = true ∧ ∀ x ∈ m, x ≠ '@') := by
  unfold matchSshAt at h
  rcases hu : matchUser l with _ | ⟨uu, r1⟩ <;> rw [hu] at h <;> dsimp only at h
  · simp at h
  · rcases ht : takeRun isHostChar r1 with ⟨hs, rest1⟩
    rw [ht] at h
    dsimp only at h
    obtain ⟨g1, g2, g3⟩ := takeRun_sound isHostChar r1 hs rest1 ht
    by_cases he : hs.isEmpty
    · rw [if_pos he] at h
      simp at h
    · rw [if_neg he] at h
      have hne : hs ≠ [] := by
        cases hs
        · simp at he
        · simp
      cases rest1 with
      | nil => simp at h
      | cons c r3 =>
        dsimp only at h
        by_cases hc : c = ':'
        · rw [if_pos hc] at h
          rcases hmp : matchPath r3 with _ | ⟨p0, lo⟩ <;> rw [hmp] at h <;> dsimp only at h
          · simp at h
          · simp only [Option.some_inj] at h
            subst h
            obtain ⟨f1, f2⟩ := matchPath_sound r3 p0 lo hmp
            obtain ⟨u1, cu, mu, hum, huc, hunm⟩ := matchUser_sound l uu r1 hu
            refine ⟨⟨lo, ?_⟩, ⟨hne, g2⟩, f2, cu, mu, hum, huc, hunm⟩
            rw [u1, g1, f1, hc]
        · rw [if_neg hc] at h
          simp at h

theorem matchSshAt_render (hst p : List Char) (hh : hostOk hst) (hp : gitPath p) :
    matchSshAt ('g' :: 'i' :: 't' :: '@' :: (hst ++ ':' :: p))
      = some ⟨['g', 'i', 't', '@'], hst, p⟩ := by
  have hu : matchUser ('g' :: 'i' :: 't' :: '@' :: (hst ++ ':' :: p))
      = some (['g', 'i', 't', '@'], hst ++ ':' :: p) := by
    have h0 := matchUser_compute 'g' ['i', 't'] (hst ++ ':' :: p) (by decide) (by decide)
    simpa using h0
  unfold matchSshAt
  rw [hu]
  dsimp only
  rw [takeRun_exact isHostChar hst (':' :: p) hh.2
    (by intro c cs hcc; injection hcc with e1 _; subst e1; decide)]
  dsimp only
  rw [if_neg (by simp [isEmpty_false_of_ne_nil hst hh.1])]
  rw [if_pos rfl]
  rw [matchPath_compute p hp]

theorem containsCSS_cons (c : Char) (t : List Char) :
    containsCSS (c :: t) = ((decide (c = ':') && listStartsWith t ['/', '/']) || containsCSS t) :=
  rfl

theorem containsCSS_append_of_ne (a b : List Char) (ha : ∀ c ∈ a, c ≠ ':') :
    containsCSS (a ++ b) = containsCSS b := by
  induction a with
  | nil => rfl
  | cons c a' ih =>
    rw [List.cons_append, containsCSS_cons]
    rw [decide_eq_false (ha c (List.mem_cons_self _ _))]
    simp only [Bool.false_and, Bool.false_or]
    exact ih (fun x hx => ha x (List.mem_cons_of_mem _ hx))

theorem containsCSS_suffix_false (a b : List Char) (h : containsCSS (a ++ b) = false) :
    containsCSS b = false := by
  induction a with
  | nil => exact h
  | cons c a' ih =>
    rw [List.cons_append, containsCSS_cons] at h
    exact ih (Bool.or_eq_false_iff.mp h).2

theorem containsCSS_of_css (a b : List Char) :
    containsCSS (a ++ ':' :: '/' :: '/' :: b) = true := by
  induction a with
  | nil =>
    rw [List.nil_append, containsCSS_cons]
    simp [listStartsWith]
  | cons c a' ih =>
    rw [List.cons_append, containsCSS_cons, ih]
    simp

theorem searchUrl_none_of_no_css (l : List Char) (h : containsCSS l = false) :
    searchUrl l = none := by
  rcases hs : searchUrl l with _ | g
  · rfl
  · obtain ⟨a, b, h1, h2⟩ := searchUrl_sound l g hs
    obtain ⟨_, _, a', b', hb⟩ := matchUrlAt_sound b g h2
    rw [h1, hb] at h
    have := containsCSS_suffix_false a (a' ++ ':' :: '/' :: '/' :: b') h
    rw [containsCSS_of_css a' b'] at this
    simp at this

theorem strToList_append (a b : String) : (a ++ b).toList = a.toList ++ b.toList := rfl

theorem strEta (s : String) : String.mk s.toList = s := rfl

theorem matchUrlAt_fail_git (rest : List Char) :
    matchUrlAt ('g' :: 'i' :: 't' :: '@' :: rest) = none := by
  have h0 : takeRun isWordChar ('g' :: 'i' :: 't' :: '@' :: rest)
      = (['g', 'i', 't'], '@' :: rest) := by
    have h1 := takeRun_exact isWordChar ['g', 'i', 't'] ('@' :: rest) (by decide)
      (by intro c cs hcc; injection hcc with e1 _; subst e1; decide)
    simpa using h1
  have ht : matchTransport ('g' :: 'i' :: 't' :: '@' :: rest) = none := by
    unfold matchTransport
    rw [h0]
    dsimp only
    rw [if_neg (by decide : ¬((['g', 'i', 't'] : List Char).isEmpty = true))]
    rcases rest with _ | ⟨d2, _ | ⟨d3, r⟩⟩
    · rfl
    · rfl
    · dsimp only
      rw [if_neg (by intro hcc; exact absurd hcc.1 (by decide))]
  unfold matchUrlAt
  rw [ht]

theorem matchUrlAt_fail_it (rest : List Char) :
    matchUrlAt ('i' :: 't' :: '@' :: rest) = none := by
  have h0 : takeRun isWordChar ('i' :: 't' :: '@' :: rest) = (['i', 't'], '@' :: rest) := by
    have h1 := takeRun_exact isWordChar ['i', 't'] ('@' :: rest) (by decide)
      (by intro c cs hcc; injection hcc with e1 _; subst e1; decide)
    simpa using h1
  have ht : matchTransport ('i' :: 't' :: '@' :: rest) = none := by
    unfold matchTransport
    rw [h0]
    dsimp only
    rw [if_neg (by decide : ¬((['i', 't'] : List Char).isEmpty = true))]
    rcases rest with _ | ⟨d2, _ | ⟨d3, r⟩⟩
    · rfl
    · rfl
    · dsimp only
      rw [if_neg (by intro hcc; exact absurd hcc.1 (by decide))]
  unfold matchUrlAt
  rw [ht]

theorem matchUrlAt_fail_t (rest : List Char) :
    matchUrlAt ('t' :: '@' :: rest) = none := by
  have h0 : takeRun isWordChar ('t' :: '@' :: rest) = (['t'], '@' :: rest) := by
    have h1 := takeRun_exact isWordChar ['t'] ('@' :: rest) (by decide)
      (by intro c cs hcc; injection hcc with e1 _; subst e1; decide)
    simpa using h1
  have ht : matchTransport ('t' :: '@' :: rest) = none := by
    unfold matchTransport
    rw [h0]
    dsimp only
    rw [if_neg (by decide : ¬((['t'] : List Char).isEmpty = true))]
    rcases rest with _ | ⟨d2, _ | ⟨d3, r⟩⟩
    · rfl
    · rfl
    · dsimp only
      rw [if_neg (by intro hcc; exact absurd hcc.1 (by decide))]
  unfold matchUrlAt
  rw [ht]

theorem matchUrlAt_fail_amp (rest : List Char) :
    matchUrlAt ('@' :: rest) = none := by
  have h0 : takeRun isWordChar ('@' :: rest) = ([], '@' :: rest) := by
    have h1 := takeRun_exact isWordChar [] ('@' :: rest) (by simp)
      (by intro c cs hcc; injection hcc with e1 _; subst e1; decide)
    simpa using h1
  have ht : matchTransport ('@' :: rest) = none := by
    unfold matchTransport
    rw [h0]
    rfl
  unfold matchUrlAt
  rw [ht]

/-- No url-pattern match exists anywhere inside the ssh re-rendering
`git@host:path` of an ssh-parsed url: a match would consume a
substring of `host ++ ":" ++ path`, which also occurs in the original
url, contradicting that the original url did not match the url
pattern. -/
theorem searchUrl_render_none (u : String) (g : SshGroups)
    (hurl : searchUrl u.toList = none) (hssh : searchSsh u.toList = some g) :
    searchUrl ('g' :: 'i' :: 't' :: '@' :: (g.host ++ ':' :: g.path)) = none := by
  rcases hs : searchUrl ('g' :: 'i' :: 't' :: '@' :: (g.host ++ ':' :: g.path)) with _ | g'
  · rfl
  · exfalso
    obtain ⟨a, b, hab, hm⟩ := searchUrl_sound _ g' hs
    obtain ⟨pre, suf, hsuf, hmS⟩ := searchSsh_sound _ g hssh
    obtain ⟨⟨rest, hrest⟩, _, _, _⟩ := matchSshAt_sound suf g hmS
    rcases a with _ | ⟨x1, _ | ⟨x2, _ | ⟨x3, _ | ⟨x4, a5⟩⟩⟩⟩
    · rw [List.nil_append] at hab
      rw [← hab, matchUrlAt_fail_git] at hm
      simp at hm
    · simp only [List.cons_append, List.nil_append] at hab
      injection hab with e1 hab
      rw [← hab, matchUrlAt_fail_it] at hm
      simp at hm
    · simp only [List.cons_append, List.nil_append] at hab
      injection hab with e1 hab
      injection hab with e2 hab
      rw [← hab, matchUrlAt_fail_t] at hm
      simp at hm
    · simp only [List.cons_append, List.nil_append] at hab
      injection hab with e1 hab
      injection hab with e2 hab
      injection hab with e3 hab
      rw [← hab, matchUrlAt_fail_amp] at hm
      simp at hm
    · simp only [List.cons_append, List.nil_append] at hab
      injection hab with e1 hab
      injection hab with e2 hab
      injection hab with e3 hab
      injection hab with e4 hab
      -- hab : g.host ++ ':' :: g.path = a5 ++ b
      obtain ⟨g'', hg''⟩ := matchUrlAt_mono b rest g' hm
      have hS : u.toList = (pre ++ g.user ++ a5) ++ (b ++ rest) := by
        rw [hsuf, hrest]
        have h1 : g.host ++ ':' :: (g.path ++ rest) = (g.host ++ ':' :: g.path) ++ rest := by
          simp
        rw [h1, hab]
        simp
      obtain ⟨g3, hg3⟩ := searchUrl_some_of_suffix (pre ++ g.user ++ a5) (b ++ rest) g'' hg''
      rw [← hS] at hg3
      rw [hurl] at hg3
      simp at hg3

theorem parts_ssh_inv (u : String) (i : PartsInfo)
    (hp : GitURL.parts u = some i) (hs : i.syn = .ssh) :
    searchUrl u.toList = none ∧
      ∃ g : SshGroups, searchSsh u.toList = some g ∧
        i.user = String.mk g.user ∧ i.host = String.mk g.host ∧
        i.path = String.mk g.path := by
  unfold GitURL.parts at hp
  rcases h1 : searchUrl u.toList with _ | g1 <;> rw [h1] at hp <;> dsimp only at hp
  · rcases h2 : searchSsh u.toList with _ | g2 <;> rw [h2] at hp <;> dsimp only at hp
    · simp at hp
    · simp only [Option.some_inj] at hp
      subst hp
      exact ⟨rfl, g2, rfl, rfl, rfl, rfl⟩
  · simp only [Option.some_inj] at hp
    subst hp
    simp at hs

theorem parts_url_inv (u : String) (i : PartsInfo)
    (hp : GitURL.parts u = some i) (hs : i.syn = .url) :
    ∃ g : UrlGroups, searchUrl u.toList = some g ∧
      i.host = String.mk g.host ∧ i.path = String.mk g.path := by
  unfold GitURL.parts at hp
  rcases h1 : searchUrl u.toList with _ | g1 <;> rw [h1] at hp <;> dsimp only at hp
  · rcases h2 : searchSsh u.toList with _ | g2 <;> rw [h2] at hp <;> dsimp only at hp
    · simp at hp
    · simp only [Option.some_inj] at hp
      subst hp
      simp at hs
  · simp only [Option.some_inj] at hp
    subst hp
    exact ⟨g1, rfl, rfl, rfl⟩

theorem parts_sound (u : String) (i : PartsInfo) (hp : GitURL.parts u = some i) :
    hostOk i.host.toList ∧ gitPath i.path.toList := by
  cases hsyn : i.syn with
  | url =>
    obtain ⟨g, hg, hh, hpth⟩ := parts_url_inv u i hp hsyn
    obtain ⟨a, b, _, hm⟩ := searchUrl_sound _ g hg
    obtain ⟨h1, h2, _⟩ := matchUrlAt_sound b g hm
    rw [hh, hpth]
    exact ⟨h1, h2⟩
  | ssh =>
    obtain ⟨_, g, hg, _, hh, hpth⟩ := parts_ssh_inv u i hp hsyn
    obtain ⟨a, b, _, hm⟩ := searchSsh_sound _ g hg
    obtain ⟨_, hh2, hp2, _⟩ := matchSshAt_sound b g hm
    rw [hh, hpth]
    exact ⟨hh2, hp2⟩

theorem render_ssh_toList (hst p : String) :
    ("git@" ++ hst ++ ":" ++ p).toList
      = 'g' :: 'i' :: 't' :: '@' :: (hst.toList ++ ':' :: p.toList) := by
  simp only [strToList_append]
  simp

/-- Re-parsing the ssh rendering `git@host:path` when no url-pattern
match exists in it: the ssh pattern matches at position zero with user
`git@` and the same host and path. -/
theorem parts_render_ssh (hst p : String)
    (hnone : searchUrl ('g' :: 'i' :: 't' :: '@' :: (hst.toList ++ ':' :: p.toList)) = none)
    (hh : hostOk hst.toList) (hgp : gitPath p.toList) :
    GitURL.parts ("git@" ++ hst ++ ":" ++ p)
      = some ⟨.ssh, "", "git@", hst, "", p⟩ := by
  unfold GitURL.parts
  rw [render_ssh_toList]
  rw [hnone]
  dsimp only
  have hsshR : searchSsh ('g' :: 'i' :: 't' :: '@' :: (hst.toList ++ ':' :: p.toList))
      = some ⟨['g', 'i', 't', '@'], hst.toList, p.toList⟩ := by
    unfold searchSsh
    rw [matchSshAt_render hst.toList p.toList hh hgp]
  rw [hsshR]
  dsimp only
  rw [show String.mk ['g', 'i', 't', '@'] = "git@" from rfl]
  rw [strEta, strEta]

theorem containsCSS_render_ssh (hst p : List Char)
    (hhost : ∀ c ∈ hst, isHostChar c = true)
    (h1 : containsCSS p = false) (h2 : listStartsWith p ['/', '/'] = false) :
    containsCSS ('g' :: 'i' :: 't' :: '@' :: (hst ++ ':' :: p)) = false := by
  have e1 : containsCSS ('g' :: 'i' :: 't' :: '@' :: (hst ++ ':' :: p))
      = containsCSS (hst ++ ':' :: p) := by
    have h0 := containsCSS_append_of_ne ['g', 'i', 't', '@'] (hst ++ ':' :: p) (by decide)
    simpa using h0
  rw [e1]
  rw [containsCSS_append_of_ne hst (':' :: p)
    (fun c hc => isHostChar_ne_colon c (hhost c hc))]
  rw [containsCSS_cons]
  simp [h1, h2]

/-- Re-parsing a transport rendering `proto://host/path` whose path
contains no `'@'`: the url pattern matches at position zero with the
same host and path and no user or port group. -/
theorem parts_render_url (proto hst p : String)
    (hw : proto.toList ≠ []) (hwall : ∀ c ∈ proto.toList, isWordChar c = true)
    (hh : hostOk hst.toList) (hgp : gitPath p.toList)
    (hat : ∀ x ∈ p.toList, x ≠ '@') :
    GitURL.parts (proto ++ "://" ++ hst ++ "/" ++ p)
      = some ⟨.url, proto ++ "://", "", hst, "", p⟩ := by
  have hlist : (proto ++ "://" ++ hst ++ "/" ++ p).toList
      = proto.toList ++ ':' :: '/' :: '/' :: (hst.toList ++ '/' :: p.toList) := by
    simp only [strToList_append]
    simp
  have hat' : ∀ x ∈ hst.toList ++ '/' :: p.toList, x ≠ '@' := by
    intro x hx
    rcases List.mem_append.mp hx with hx | hx
    · exact isHostChar_ne_amp x (hh.2 x hx)
    · rcases List.mem_cons.mp hx with hx | hx
      · subst hx
        decide
      · exact hat x hx
  have hm := matchUrlAt_compute_url proto.toList hst.toList p.toList hw hwall hh hgp hat'
  have hs : searchUrl (proto.toList ++ ':' :: '/' :: '/' :: (hst.toList ++ '/' :: p.toList))
      = some ⟨proto.toList ++ [':', '/', '/'], [], hst.toList, [], p.toList⟩ := by
    rcases hpl : proto.toList with _ | ⟨c, cs⟩
    · exact absurd hpl hw
    · rw [hpl] at hm
      rw [List.cons_append]
      unfold searchUrl
      rw [← List.cons_append, hm]
  unfold GitURL.parts
  rw [hlist, hs]
  dsimp only
  rfl

/-- C8 (amended): the round-trip holds as stated — an ssh-parsed url
re-rendered with `format("ssh")` re-parses to the same host and path —
while idempotence needs side conditions: for the supported protocols
and a parsed path that contains no `"://"` and no `'@'` and does not
start with `"//"`, applying `format` with the same protocol twice
yields the same string as applying it once (the counterexample shows
idempotence fails without these conditions). -/
theorem c8_roundtrip_and_idempotence :
    (∀ u i, GitURL.parts u = some i → i.syn = .ssh →
      ∃ f i', GitURL.format u "ssh" = some f ∧ GitURL.parts f = some i' ∧
        i'.host = i.host ∧ i'.path = i.path) ∧
    (∀ u i proto, GitURL.parts u = some i →
      (proto = "ssh" ∨ proto = "http" ∨ proto = "https") →
      containsCSS i.path.toList = false →
      listStartsWith i.path.toList ['/', '/'] = false →
      (∀ x ∈ i.path.toList, x ≠ '@') →
      ∃ f, GitURL.format u proto = some f ∧ GitURL.format f proto = some f) := by
  constructor
  · intro u i hp hs
    obtain ⟨hh, hgp⟩ := parts_sound u i hp
    obtain ⟨hurl, g, hssh, huser, hhost, hpath⟩ := parts_ssh_inv u i hp hs
    refine ⟨"git@" ++ i.host ++ ":" ++ i.path,
      ⟨.ssh, "", "git@", i.host, "", i.path⟩, ?_, ?_, rfl, rfl⟩
    · simp [GitURL.format, hp]
    · have hn : searchUrl
          ('g' :: 'i' :: 't' :: '@' :: (i.host.toList ++ ':' :: i.path.toList)) = none := by
        rw [hhost, hpath]
        exact searchUrl_render_none u g hurl hssh
      exact parts_render_ssh i.host i.path hn hh hgp
  · intro u i proto hp hproto h1 h2 h3
    obtain ⟨hh, hgp⟩ := parts_sound u i hp
    rcases hproto with hpr | hpr | hpr <;> subst hpr
    · refine ⟨"git@" ++ i.host ++ ":" ++ i.path, by simp [GitURL.format, hp], ?_⟩
      have hn : searchUrl
          ('g' :: 'i' :: 't' :: '@' :: (i.host.toList ++ ':' :: i.path.toList)) = none :=
        searchUrl_none_of_no_css _
          (containsCSS_render_ssh i.host.toList i.path.toList hh.2 h1 h2)
      have hparts := parts_render_ssh i.host i.path hn hh hgp
      simp [GitURL.format, hparts]
    · refine ⟨"http" ++ "://" ++ i.host ++ "/" ++ i.path, ?_, ?_⟩
      · simp [GitURL.format, hp]
      · have hparts := parts_render_url "http" i.host i.path (by decide) (by decide) hh hgp h3
        rw [show ("http" ++ "://" : String) = "http://" from rfl] at hparts
        simp [GitURL.format, hparts]
    · refine ⟨"https" ++ "://" ++ i.host ++ "/" ++ i.path, ?_, ?_⟩
      · simp [GitURL.format, hp]
      · have hparts := parts_render_url "https" i.host i.path (by decide) (by decide) hh hgp h3
        rw [show ("https" ++ "://" : String) = "https://" from rfl] at hparts
        simp [GitURL.format, hparts]

theorem c8_roundtrip_and_idempotence_witness :
    (∃ f i', GitURL.format "git@host:group/name.git" "ssh" = some f ∧
      GitURL.parts f = some i' ∧ i'.host = "host" ∧ i'.path = "group/name.git") ∧
    (∃ f, GitURL.format "git@host:group/name.git" "https" = some f ∧
      GitURL.format f "https" = some f) :=
  ⟨c8_roundtrip_and_idempotence.1 "git@host:group/name.git"
      ⟨Syn.ssh, "", "git@", "host", "", "group/name.git"⟩ (by decide) rfl,
   c8_roundtrip_and_idempotence.2 "git@host:group/name.git"
      ⟨Syn.ssh, "", "git@", "host", "", "group/name.git"⟩ "https" (by decide)
      (Or.inr (Or.inr rfl)) (by decide) (by decide) (by decide)⟩

end Supersetup
